import Mathlib

/-!
# go-mapreduce: coordinator and worker

A shallow embedding of `src/mapreduce/types.go`, `src/mapreduce/master.go` and
`src/mapreduce/worker.go`.

Conventions of the embedding.

* A Go `int` is an `Int`; a loop counter or slice index that the code only ever
  takes from `0` upwards is a `Nat` and is cast where it flows into an `int`.
* A Go `string` is a `String`.  `sort.Strings` compares strings byte by byte;
  on UTF-8 text that is the lexicographic order of the code points, which is
  the order `strLE` below.
* A Go `map[K]V` is a `GoMap K V`: a list of entries with pairwise distinct
  keys.  The order of the list stands for one of the iteration orders Go may
  choose; no theorem below depends on it.
* `time.Time` is an `Int`, the nanoseconds since the zero `time.Time`.
  `RequestTask` takes the reading of the clock as its argument `now`.
* A run-time panic (index out of range, assignment to an entry of a nil map,
  integer division by zero) is the result `none`.
* The three mutexes serialise the methods; every method is one atomic step on
  the `Master` value.
-/

namespace MapReduce

/-! ## Go maps -/

/-- A Go map: entries with pairwise distinct keys. -/
structure GoMap (K V : Type) where
  entries : List (K × V)
  nodup : (entries.map Prod.fst).Nodup

/-- Reading `m[k]` in an entry list: the value of the entry with key `k`, if any. -/
def lookupList {K V : Type} [DecidableEq K] (k : K) : List (K × V) → Option V
  | [] => none
  | (k', v) :: t => if k' = k then some v else lookupList k t

/-- Writing `m[k] = v` in an entry list: overwrite the entry of `k`, or add one. -/
def setList {K V : Type} [DecidableEq K] (k : K) (v : V) : List (K × V) → List (K × V)
  | [] => [(k, v)]
  | (k', v') :: t => if k' = k then (k, v) :: t else (k', v') :: setList k v t

theorem keys_setList {K V : Type} [DecidableEq K] (k : K) (v : V) (l : List (K × V)) :
    (setList k v l).map Prod.fst =
      if k ∈ l.map Prod.fst then l.map Prod.fst else l.map Prod.fst ++ [k] := by
  induction l with
  | nil => simp [setList]
  | cons e t ih =>
    obtain ⟨k', v'⟩ := e
    by_cases h : k' = k
    · subst h; simp [setList]
    · have h' : ¬ k = k' := fun e => h e.symm
      by_cases hm : k ∈ t.map Prod.fst
      · rw [if_pos hm] at ih
        have hm' : k ∈ ((k', v') :: t).map Prod.fst := by
          simp only [List.map_cons, List.mem_cons]; exact Or.inr hm
        rw [if_pos hm']
        simp [setList, h, ih]
      · rw [if_neg hm] at ih
        have hm' : ¬ k ∈ ((k', v') :: t).map Prod.fst := by
          simp only [List.map_cons, List.mem_cons, not_or]; exact ⟨h', hm⟩
        rw [if_neg hm']
        simp [setList, h, ih]

theorem nodup_setList {K V : Type} [DecidableEq K] (k : K) (v : V) (l : List (K × V))
    (h : (l.map Prod.fst).Nodup) : ((setList k v l).map Prod.fst).Nodup := by
  rw [keys_setList]
  by_cases hm : k ∈ l.map Prod.fst
  · rw [if_pos hm]; exact h
  · rw [if_neg hm]
    exact List.Nodup.append h (List.nodup_singleton k) (by simpa using hm)

namespace GoMap

variable {K V : Type}

/-- The map `make(map[K]V)`. -/
def empty : GoMap K V := ⟨[], List.nodup_nil⟩

/-- The keys, in the order `range` visits them. -/
def keys (m : GoMap K V) : List K := m.entries.map Prod.fst

/-- The read `m[k]` with its presence flag; an absent key is `none`. -/
def get? [DecidableEq K] (m : GoMap K V) (k : K) : Option V := lookupList k m.entries

/-- The write `m[k] = v`. -/
def set [DecidableEq K] (m : GoMap K V) (k : K) (v : V) : GoMap K V :=
  ⟨setList k v m.entries, nodup_setList k v m.entries m.nodup⟩

end GoMap

/-! ## types.go -/

structure KeyValue where
  Key : String
  Value : String
deriving DecidableEq

abbrev MapFunc := String → String → List KeyValue

abbrev ReduceFunc := String → List String → String

inductive TaskType where
  | MapTask
  | ReduceTask
  | NoTask
deriving DecidableEq

open TaskType

/-- The struct `Task`; the field `Type` is `Typ` here. -/
structure Task where
  Typ : TaskType
  TaskID : Int
  ChunkIndex : Int
  Data : String
deriving DecidableEq

/-- The values the field `TaskStatus.Status` takes: the code writes only the
three literals `"idle"`, `"in-progress"` and `"done"` to it. -/
inductive Status where
  | idle
  | inProgress
  | done
deriving DecidableEq

/-- The struct `TaskStatus`; `AssignedAt` is a `time.Time`, in nanoseconds
since the zero `time.Time`. -/
structure TaskStatus where
  Status : Status
  AssignedAt : Int
deriving DecidableEq

/-- The struct `Master` without its mutexes.  `numMap` and `numReduce` are
counts (`len(inputs)` and the length given to `make`), never negative. -/
structure Master where
  numMap : Nat
  numReduce : Nat
  inputFiles : List String
  mapStatus : List TaskStatus
  reduceStatus : List TaskStatus
  intermediateFiles : GoMap Int (GoMap String (List String))
  outputFiles : GoMap Int String

/-! ## Time -/

/-- The constant `time.Second`, in nanoseconds. -/
def second : Int := 1000000000

/-- The largest `time.Duration`. -/
def maxDuration : Int := 2 ^ 63 - 1

/-- The smallest `time.Duration`. -/
def minDuration : Int := -(2 ^ 63)

/-- The call `time.Since(t)` at clock reading `now`: the difference as a
`time.Duration`, which saturates at the ends of its range. -/
def timeSince (now t : Int) : Int :=
  if now - t > maxDuration then maxDuration
  else if now - t < minDuration then minDuration
  else now - t

/-! ## master.go -/

/-- The store built by the third loop of `NewMaster`: an empty inner map under
each of the keys `0 .. numReduce-1`. -/
def newIntermediate (numReduce : Nat) : GoMap Int (GoMap String (List String)) :=
  (List.range numReduce).foldl (fun s i => s.set (i : Int) GoMap.empty) GoMap.empty

/-- The constructor `NewMaster(inputs, numReduce)`.  A negative `numReduce`
panics in `make` and is not an argument here. -/
def NewMaster (inputs : List String) (numReduce : Nat) : Master :=
  { numMap := inputs.length
    numReduce := numReduce
    inputFiles := inputs
    mapStatus := (List.replicate inputs.length (⟨Status.idle, 0⟩ : TaskStatus))
    reduceStatus := (List.replicate numReduce (⟨Status.idle, 0⟩ : TaskStatus))
    intermediateFiles := newIntermediate numReduce
    outputFiles := GoMap.empty }

/-- The loop `for i := lo; i < lo + k; i++ { if c(i) { return i } }`: the first
index at which the test holds, `some none` when the loop runs to its end, and
`none` when evaluating the test panics. -/
def loopFind (c : Nat → Option Bool) : Nat → Nat → Option (Option Nat)
  | 0, _ => some none
  | k + 1, i =>
    match c i with
    | none => none
    | some true => some (some i)
    | some false => loopFind c k (i + 1)

/-- The test `st[i].Status == "idle"`. -/
def isIdleAt (st : List TaskStatus) (i : Nat) : Option Bool :=
  (st[i]?).map (fun s => decide (s.Status = Status.idle))

/-- The test `st[i].Status == "in-progress" && time.Since(st[i].AssignedAt) > limit`. -/
def isTimedOutAt (st : List TaskStatus) (now : Int) (limit : Int) (i : Nat) : Option Bool :=
  (st[i]?).map (fun s => decide (s.Status = Status.inProgress) &&
    decide (timeSince now s.AssignedAt > limit))

/-- The test `st[i].Status != "done"`. -/
def isNotDoneAt (st : List TaskStatus) (i : Nat) : Option Bool :=
  (st[i]?).map (fun s => decide (s.Status ≠ Status.done))

/-- The method `RequestTask`, called when the clock reads `now`. -/
def RequestTask (m : Master) (now : Int) : Option (Task × Master) := do
  -- assign idle map tasks
  match ← loopFind (isIdleAt m.mapStatus) m.numMap 0 with
  | some i =>
    let data ← m.inputFiles[i]?
    some (⟨MapTask, i, i, data⟩,
      { m with mapStatus := m.mapStatus.set i ⟨Status.inProgress, now⟩ })
  | none =>
  -- reassign timed out map tasks
  match ← loopFind (isTimedOutAt m.mapStatus now (5 * second)) m.numMap 0 with
  | some i =>
    let s ← m.mapStatus[i]?
    let data ← m.inputFiles[i]?
    some (⟨MapTask, i, i, data⟩,
      { m with mapStatus := m.mapStatus.set i { s with AssignedAt := now } })
  | none =>
  match ← loopFind (isNotDoneAt m.mapStatus) m.numMap 0 with
  | some _ => some (⟨NoTask, 0, 0, ""⟩, m)
  | none =>
  -- assign idle reduce tasks
  match ← loopFind (isIdleAt m.reduceStatus) m.numReduce 0 with
  | some i =>
    some (⟨ReduceTask, i, i, ""⟩,
      { m with reduceStatus := m.reduceStatus.set i ⟨Status.inProgress, now⟩ })
  | none =>
  match ← loopFind (isTimedOutAt m.reduceStatus now (10 * second)) m.numReduce 0 with
  | some i =>
    let s ← m.reduceStatus[i]?
    some (⟨ReduceTask, i, i, ""⟩,
      { m with reduceStatus := m.reduceStatus.set i { s with AssignedAt := now } })
  | none => some (⟨NoTask, 0, 0, ""⟩, m)

/-- The statement
`m.intermediateFiles[reduce][kv.Key] = append(m.intermediateFiles[reduce][kv.Key], kv.Value)`.
Without an inner map under `reduce` the write is an assignment to an entry of
a nil map. -/
def appendValue (store : GoMap Int (GoMap String (List String))) (reduce : Int)
    (kv : KeyValue) : Option (GoMap Int (GoMap String (List String))) :=
  match store.get? reduce with
  | none => none
  | some inner =>
    some (store.set reduce (inner.set kv.Key ((inner.get? kv.Key).getD [] ++ [kv.Value])))

/-- The inner loop of `ReportMapSuccess`, over the pairs of one partition. -/
def appendAll (store : GoMap Int (GoMap String (List String))) (reduce : Int) :
    List KeyValue → Option (GoMap Int (GoMap String (List String)))
  | [] => some store
  | kv :: kvs => (appendValue store reduce kv).bind (fun s => appendAll s reduce kvs)

/-- The outer loop of `ReportMapSuccess`, over the entries of `partitions`. -/
def appendPartitions (store : GoMap Int (GoMap String (List String))) :
    List (Int × List KeyValue) → Option (GoMap Int (GoMap String (List String)))
  | [] => some store
  | (reduce, kvs) :: rest =>
    (appendAll store reduce kvs).bind (fun s => appendPartitions s rest)

/-- The statement `st[id].Status = "done"`. -/
def setDone (st : List TaskStatus) (id : Int) : Option (List TaskStatus) :=
  if 0 ≤ id then
    (st[id.toNat]?).map (fun s => st.set id.toNat { s with Status := Status.done })
  else none

/-- The method `ReportMapSuccess`. -/
def ReportMapSuccess (m : Master) (mapID : Int) (partitions : GoMap Int (List KeyValue)) :
    Option Master := do
  let store ← appendPartitions m.intermediateFiles partitions.entries
  let st ← setDone m.mapStatus mapID
  some { m with intermediateFiles := store, mapStatus := st }

/-- The method `ReportReduceSuccess`. -/
def ReportReduceSuccess (m : Master) (reduceID : Int) (outputFile : String) :
    Option Master := do
  let out := m.outputFiles.set reduceID outputFile
  let st ← setDone m.reduceStatus reduceID
  some { m with outputFiles := out, reduceStatus := st }

/-- The method `GetReducePartitions`: a fresh map filled entry by entry from
`m.intermediateFiles[reduceID]`; a missing inner map is ranged over as empty. -/
def GetReducePartitions (m : Master) (reduceID : Int) : GoMap String (List String) :=
  (((m.intermediateFiles.get? reduceID).getD GoMap.empty).entries).foldl
    (fun copyMap e => copyMap.set e.1 e.2) GoMap.empty

/-- The method `Success`. -/
def Success (m : Master) : Option Bool := do
  match ← loopFind (isNotDoneAt m.mapStatus) m.numMap 0 with
  | some _ => some false
  | none =>
  match ← loopFind (isNotDoneAt m.reduceStatus) m.numReduce 0 with
  | some _ => some false
  | none => some true

/-- The method `GetNumReduce`. -/
def GetNumReduce (m : Master) : Int := m.numReduce

/-- The method `GetOutputFile`; a partition without a blob reads as `""`. -/
def GetOutputFile (m : Master) (reduceID : Int) : String :=
  (m.outputFiles.get? reduceID).getD ""

/-! ## worker.go -/

/-- The struct `Worker`; the `Master` it points to is passed to its methods. -/
structure Worker where
  ID : Int
  mapFn : MapFunc
  reduceFn : ReduceFunc

/-- One round of the loop of `doMap`:
`r := ihash(kv.Key) % numReduce; partitions[r] = append(partitions[r], kv)`.
The operator `%` of Go truncates towards zero and panics on a zero divisor. -/
def addToBucket (ihash : String → Int) (numReduce : Nat)
    (partitions : GoMap Int (List KeyValue)) (kv : KeyValue) :
    Option (GoMap Int (List KeyValue)) :=
  if numReduce = 0 then none
  else
    let r := Int.tmod (ihash kv.Key) (numReduce : Int)
    some (partitions.set r ((partitions.get? r).getD [] ++ [kv]))

/-- The loop of `doMap` over the output of the map function. -/
def fillBuckets (ihash : String → Int) (numReduce : Nat) :
    GoMap Int (List KeyValue) → List KeyValue → Option (GoMap Int (List KeyValue))
  | partitions, [] => some partitions
  | partitions, kv :: kvs =>
    (addToBucket ihash numReduce partitions kv).bind
      (fun p => fillBuckets ihash numReduce p kvs)

/-- The value `partitions` that `doMap` hands to `ReportMapSuccess`, for the
map output `kvs`. -/
def doMapPartitions (ihash : String → Int) (numReduce : Nat) (kvs : List KeyValue) :
    Option (GoMap Int (List KeyValue)) :=
  fillBuckets ihash numReduce GoMap.empty kvs

/-- The method `doMap`.  The function `ihash` of the package is an argument. -/
def doMap (ihash : String → Int) (w : Worker) (m : Master) (task : Task) : Option Master := do
  let kvs := w.mapFn ("doc-" ++ toString task.ChunkIndex) task.Data
  let partitions ← doMapPartitions ihash m.numReduce kvs
  ReportMapSuccess m task.TaskID partitions

/-- The order of `sort.Strings`. -/
def strLE (a b : String) : Prop := a.data ≤ b.data

instance strLE_decidable : DecidableRel strLE :=
  fun a b => inferInstanceAs (Decidable (a.data ≤ b.data))

/-- The call `sort.Strings(keys)`. -/
def sortStrings (keys : List String) : List String := List.insertionSort strLE keys

/-- The keys `doReduce` collects by ranging over the partition, then sorts. -/
def reduceKeys (partition : GoMap String (List String)) : List String :=
  sortStrings (partition.keys.foldl (fun keys k => keys ++ [k]) [])

/-- The calls `w.reduceFn(k, partition[k])` that `doReduce` makes, in order:
the key and the value list of each call. -/
def reduceCalls (partition : GoMap String (List String)) : List (String × List String) :=
  (reduceKeys partition).map (fun k => (k, (partition.get? k).getD []))

/-- The lines `fmt.Sprintf("%s %s", k, res)` that `doReduce` collects. -/
def reduceLines (reduceFn : ReduceFunc) (partition : GoMap String (List String)) :
    List String :=
  (reduceCalls partition).foldl
    (fun outLines c => outLines ++ [c.1 ++ " " ++ reduceFn c.1 c.2]) []

/-- The blob `final` of `doReduce`: `strings.Join(outLines, "\n")`. -/
def reduceBlob (reduceFn : ReduceFunc) (partition : GoMap String (List String)) : String :=
  String.intercalate "\n" (reduceLines reduceFn partition)

/-- The method `doReduce`. -/
def doReduce (w : Worker) (m : Master) (task : Task) : Option Master :=
  ReportReduceSuccess m task.TaskID
    (reduceBlob w.reduceFn (GetReducePartitions m task.ChunkIndex))

/-- The relations between the fields of a `Master` that `NewMaster` sets up and
no method changes: the counts are the lengths of the slices, and the
Intermediate Store has an inner map under each partition index. -/
def Master.WF (m : Master) : Prop :=
  m.inputFiles.length = m.numMap ∧ m.mapStatus.length = m.numMap ∧
  m.reduceStatus.length = m.numReduce ∧
  ∀ r : Nat, r < m.numReduce → (m.intermediateFiles.get? (r : Int)).isSome = true

instance Master.WF_decidable (m : Master) : Decidable m.WF := by
  unfold Master.WF; infer_instance

/-- The status of task `i` in a status slice. -/
def statusAt (st : List TaskStatus) (i : Nat) : Option Status :=
  (st[i]?).map (fun s => s.Status)

/-- Task `i` of the slice is in progress and was assigned more than `limit`
nanoseconds before `now`. -/
def TimedOut (st : List TaskStatus) (now : Int) (limit : Int) (i : Nat) : Prop :=
  ∃ s, st[i]? = some s ∧ s.Status = Status.inProgress ∧ now - s.AssignedAt > limit

/-- Every task of the slice is done. -/
def AllDone (st : List TaskStatus) : Prop :=
  ∀ i, i < st.length → statusAt st i = some Status.done

/-- Index `i` is the lowest one below `n` at which `P` holds. -/
def Lowest (P : Nat → Prop) (n i : Nat) : Prop :=
  i < n ∧ P i ∧ ∀ j, j < i → ¬ P j

/-- The read `store[r][k]` of the Intermediate Store: the value list of key `k`
in partition `r`, empty when the partition or the key is absent. -/
def storeValues (store : GoMap Int (GoMap String (List String))) (r : Int) (k : String) :
    List String :=
  ((store.get? r).bind (fun inner => inner.get? k)).getD []

/-- The values of the pairs with key `k` in a list of pairs, in their order. -/
def valuesOf (k : String) (kvs : List KeyValue) : List String :=
  (kvs.filter (fun kv => decide (kv.Key = k))).map (fun kv => kv.Value)

/-- The inner loop of `ReportMapSuccess` as it acts on the inner map of its
partition. -/
def appendInner (inner : GoMap String (List String)) :
    List KeyValue → GoMap String (List String)
  | [] => inner
  | kv :: kvs =>
    appendInner (inner.set kv.Key ((inner.get? kv.Key).getD [] ++ [kv.Value])) kvs

/-! ## Predicates, call sequences, reference definitions and example states -/

/-- A state in the reduce phase: the one map task is done, the one reduce task idle. -/
def exReducePhase : Master :=
  { numMap := 1, numReduce := 1, inputFiles := ["a"],
    mapStatus := [⟨Status.done, 3⟩], reduceStatus := [⟨Status.idle, 0⟩],
    intermediateFiles := newIntermediate 1, outputFiles := GoMap.empty }

/-- A state of the map phase: task 0 is in progress since time 0, task 1 is
done, task 2 is idle; one reduce task, idle. -/
def exMapPhase : Master :=
  { numMap := 3, numReduce := 1, inputFiles := ["a", "b", "c"],
    mapStatus := [⟨Status.inProgress, 0⟩, ⟨Status.done, 0⟩, ⟨Status.idle, 0⟩],
    reduceStatus := [⟨Status.idle, 0⟩],
    intermediateFiles := newIntermediate 1, outputFiles := GoMap.empty }

/-- A state of the map phase without idle tasks: task 0 is done, tasks 1 and 2
are in progress since times 0 and 1. -/
def exStraggler : Master :=
  { numMap := 3, numReduce := 1, inputFiles := ["a", "b", "c"],
    mapStatus := [⟨Status.done, 0⟩, ⟨Status.inProgress, 0⟩, ⟨Status.inProgress, 1⟩],
    reduceStatus := [⟨Status.idle, 0⟩],
    intermediateFiles := newIntermediate 1, outputFiles := GoMap.empty }

/-- The read `partitions[r]` of the argument of `ReportMapSuccess`. -/
def bucketOf (partitions : GoMap Int (List KeyValue)) (r : Int) : List KeyValue :=
  (partitions.get? r).getD []

/-- The partition indices of the argument are reduce indices of the state. -/
def PartitionsInRange (m : Master) (partitions : GoMap Int (List KeyValue)) : Prop :=
  ∀ r, r ∈ partitions.keys → 0 ≤ r ∧ r < (m.numReduce : Int)

/-- A finished state: the one map task and the one reduce task are done. -/
def exFinished : Master :=
  { numMap := 1, numReduce := 1, inputFiles := ["a"],
    mapStatus := [⟨Status.done, 3⟩], reduceStatus := [⟨Status.done, 4⟩],
    intermediateFiles := (newIntermediate 1).set 0 (GoMap.empty.set "k" ["v"]),
    outputFiles := GoMap.empty.set 0 "k v" }

/-- A report of map task 0 with one pair in partition 0. -/
def exReport : GoMap Int (List KeyValue) := GoMap.empty.set 0 [⟨"k", "w"⟩]

/-- The place of a status in the order idle < in-progress < done. -/
def Status.rank : Status → Nat
  | Status.idle => 0
  | Status.inProgress => 1
  | Status.done => 2

/-- No task of the slice `before` has an earlier status in the slice `after`:
the slices have the same tasks, the rank of each status has not gone down, a
done task is done, and a task in progress is not idle. -/
def NeverRegresses (before after : List TaskStatus) : Prop :=
  before.length = after.length ∧
  ∀ (i : Nat) (s s' : TaskStatus), before[i]? = some s → after[i]? = some s' →
    s.Status.rank ≤ s'.Status.rank ∧
    (s.Status = Status.done → s'.Status = Status.done) ∧
    (s.Status = Status.inProgress → s'.Status ≠ Status.idle)

/-- A state of the map phase with a pair already stored: map task 0 is done and
has stored `("k", "v")` in partition 0, map task 1 is in progress. -/
def exStored : Master :=
  { numMap := 2, numReduce := 2, inputFiles := ["a", "b"],
    mapStatus := [⟨Status.done, 1⟩, ⟨Status.inProgress, 2⟩],
    reduceStatus := [⟨Status.idle, 0⟩, ⟨Status.idle, 0⟩],
    intermediateFiles := (newIntermediate 2).set 0 (GoMap.empty.set "k" ["v"]),
    outputFiles := GoMap.empty }

/-- A report with the pairs `("k", "w1")`, `("j", "x")`, `("k", "w2")` for
partition 0 and `("z", "y")` for partition 1. -/
def exReport2 : GoMap Int (List KeyValue) :=
  (GoMap.empty.set 1 [⟨"z", "y"⟩]).set 0 [⟨"k", "w1"⟩, ⟨"j", "x"⟩, ⟨"k", "w2"⟩]

/-- All pairs held by the buckets of `partitions`, bucket after bucket. -/
def allPairs (partitions : GoMap Int (List KeyValue)) : List KeyValue :=
  (partitions.entries.map Prod.snd).flatten

/-- A hash for the examples: the length of the key. -/
def exHash (k : String) : Int := (k.length : Int)

instance strLE_total : IsTotal String strLE := ⟨fun a b => le_total a.data b.data⟩

instance strLE_trans : IsTrans String strLE :=
  ⟨fun _ _ _ h1 h2 => le_trans (α := List Char) h1 h2⟩

instance strLE_antisymm : IsAntisymm String strLE :=
  ⟨fun _ _ h1 h2 => String.ext (le_antisymm (α := List Char) h1 h2)⟩

/-- A state of the map phase at clock reading 5000000000: map task 0 is done,
map task 1 is in progress since time 0, exactly 5 seconds; the reduce task is idle. -/
def exWaiting : Master :=
  { numMap := 2, numReduce := 1, inputFiles := ["a", "b"],
    mapStatus := [⟨Status.done, 0⟩, ⟨Status.inProgress, 0⟩],
    reduceStatus := [⟨Status.idle, 0⟩],
    intermediateFiles := newIntermediate 1, outputFiles := GoMap.empty }

/-- A state of the reduce phase: the map task is done, reduce task 0 is done,
reduce task 1 is in progress since time 0 and reduce task 2 is idle. -/
def exReduceIdle : Master :=
  { numMap := 1, numReduce := 3, inputFiles := ["a"],
    mapStatus := [⟨Status.done, 0⟩],
    reduceStatus := [⟨Status.done, 0⟩, ⟨Status.inProgress, 0⟩, ⟨Status.idle, 0⟩],
    intermediateFiles := newIntermediate 3, outputFiles := GoMap.empty }

/-- A state of the reduce phase without idle tasks: reduce task 0 is done,
reduce tasks 1 and 2 are in progress since times 0 and 7. -/
def exReduceStraggler : Master :=
  { numMap := 1, numReduce := 3, inputFiles := ["a"],
    mapStatus := [⟨Status.done, 0⟩],
    reduceStatus := [⟨Status.done, 0⟩, ⟨Status.inProgress, 0⟩, ⟨Status.inProgress, 7⟩],
    intermediateFiles := newIntermediate 3, outputFiles := GoMap.empty }

/-- The state of `NewMaster([], 1)` after its reduce task was handed out at
clock reading `now`. -/
def emptyRunAssigned (now : Int) : Master :=
  { NewMaster [] 1 with reduceStatus := [⟨Status.inProgress, now⟩] }

/-- A call of one of the three state-changing methods of the coordinator. -/
inductive Op where
  | request (now : Int)
  | reportMap (mapID : Int) (partitions : GoMap Int (List KeyValue))
  | reportReduce (reduceID : Int) (outputFile : String)

/-- The state after one call; `none` when the call panics. -/
def step (m : Master) : Op → Option Master
  | Op.request now => (RequestTask m now).map Prod.snd
  | Op.reportMap mapID partitions => ReportMapSuccess m mapID partitions
  | Op.reportReduce reduceID outputFile => ReportReduceSuccess m reduceID outputFile

/-- The state after a sequence of calls, one after the other. -/
def run (m : Master) : List Op → Option Master
  | [] => some m
  | op :: ops => (step m op).bind (fun m' => run m' ops)

/-- The calls of the sequence that report reduce task `r`. -/
def reportsReduce (r : Int) : Op → Bool
  | Op.reportReduce reduceID _ => decide (reduceID = r)
  | _ => false

/-- Key `k` has an entry in partition `r` of the Intermediate Store. -/
def storeHasKey (store : GoMap Int (GoMap String (List String))) (r : Int) (k : String) :
    Prop :=
  ((store.get? r).bind (fun inner => inner.get? k)).isSome = true

/-- A sequence of calls on `NewMaster(["a"], 2)` that reports reduce task 0 and
never reduce task 1. -/
def exOps : List Op :=
  [Op.request 1, Op.reportMap 0 (GoMap.empty.set 0 [⟨"k", "v"⟩]), Op.request 2,
    Op.reportReduce 0 "k v", Op.request 3]

/-- The states a coordinator built by `NewMaster(inputs, numReduce)` reaches
under the worker protocol, with the tasks `RequestTask` has returned so far and
the clock reading of the last call: `RequestTask` is called at clock readings
that never go back, and a report is made only for a task that `RequestTask`
has returned, a Map task to `ReportMapSuccess` and a Reduce task to
`ReportReduceSuccess`, each with the `TaskID` of that task. -/
inductive Reachable (inputs : List String) (numReduce : Nat) :
    Master → List Task → Int → Prop where
  | init (t0 : Int) : Reachable inputs numReduce (NewMaster inputs numReduce) [] t0
  | request (m m' : Master) (issued : List Task) (t now : Int) (task : Task) :
      Reachable inputs numReduce m issued t → t ≤ now →
      RequestTask m now = some (task, m') →
      Reachable inputs numReduce m' (task :: issued) now
  | reportMap (m m' : Master) (issued : List Task) (t : Int) (task : Task)
      (partitions : GoMap Int (List KeyValue)) :
      Reachable inputs numReduce m issued t → task ∈ issued → task.Typ = MapTask →
      ReportMapSuccess m task.TaskID partitions = some m' →
      Reachable inputs numReduce m' issued t
  | reportReduce (m m' : Master) (issued : List Task) (t : Int) (task : Task)
      (outputFile : String) :
      Reachable inputs numReduce m issued t → task ∈ issued → task.Typ = ReduceTask →
      ReportReduceSuccess m task.TaskID outputFile = some m' →
      Reachable inputs numReduce m' issued t

/-- The state of `NewMaster(["a"], 1)` after its map task was handed out at
time 3 and reported, and its reduce task was handed out at time 7. -/
def exReducePhaseStarted : Master :=
  { NewMaster ["a"] 1 with
    mapStatus := [⟨Status.done, 3⟩], reduceStatus := [⟨Status.inProgress, 7⟩] }

/-- The read `store[r][k]` of the Intermediate Store with its presence flag. -/
def storeEntry (store : GoMap Int (GoMap String (List String))) (r : Int) (k : String) :
    Option (List String) :=
  (store.get? r).bind (fun inner => inner.get? k)

/-- The calls of `ReportMapSuccess` for a list of reports `(mapID, partitions)`,
in the order of the list. -/
def reportOps (reports : List (Int × GoMap Int (List KeyValue))) : List Op :=
  reports.map (fun rp => Op.reportMap rp.1 rp.2)

/-- The values that a list of reports holds for key `k` in partition `r`,
report after report. -/
def reportedValues (reports : List (Int × GoMap Int (List KeyValue))) (r : Int)
    (k : String) : List String :=
  (reports.map (fun rp => valuesOf k (bucketOf rp.2 r))).flatten

/-- Every report of the list has an in-range map ID and in-range partition
indices. -/
def ReportsInRange (m : Master) (reports : List (Int × GoMap Int (List KeyValue))) : Prop :=
  ∀ rp, rp ∈ reports → (0 ≤ rp.1 ∧ rp.1 < (m.numMap : Int)) ∧ PartitionsInRange m rp.2

/-- A reduce function that depends on the order of its values: it joins them. -/
def exJoin : ReduceFunc := fun _ values => String.join values

/-- A reduce function that does not depend on the order of its values: it
counts them. -/
def exCount : ReduceFunc := fun _ values => toString values.length

/-- The report of map task 0: the pair `("k", "x")` in partition 0. -/
def exReportA : Int × GoMap Int (List KeyValue) := (0, GoMap.empty.set 0 [⟨"k", "x"⟩])

/-- The report of map task 1: the pair `("k", "y")` in partition 0. -/
def exReportB : Int × GoMap Int (List KeyValue) := (1, GoMap.empty.set 0 [⟨"k", "y"⟩])

/-- The values `ihash(k) % numReduce` are partition indices `0 .. numReduce-1`. -/
def HashInRange (ihash : String → Int) (numReduce : Nat) : Prop :=
  ∀ k, 0 ≤ Int.tmod (ihash k) (numReduce : Int) ∧
    Int.tmod (ihash k) (numReduce : Int) < (numReduce : Int)

/-- The pairs of a map output that `doMap` routes to partition `r`. -/
def routedTo (ihash : String → Int) (numReduce : Nat) (r : Int) (kvs : List KeyValue) :
    List KeyValue :=
  kvs.filter (fun kv => decide (Int.tmod (ihash kv.Key) (numReduce : Int) = r))

/-- A worker whose map function emits a pair with the empty key and a pair with
the key `"k"`. -/
def exWorkerEmptyKey : Worker :=
  ⟨0, fun _ data => [⟨"", data⟩, ⟨"k", "w"⟩], exJoin⟩

/-- The store `after` extends the store `before`: for every partition and key
the value list before is a leading part of the value list after, and a key that
had an entry still has one. -/
def StoreExtends (before after : GoMap Int (GoMap String (List String))) : Prop :=
  ∀ r k, (∃ added, storeValues after r k = storeValues before r k ++ added) ∧
    (storeHasKey before r k → storeHasKey after r k)

/-! ## Lemmas -/

theorem loopFind_cases (c : Nat → Option Bool) (q : Nat → Bool) (k i : Nat)
    (h : ∀ j, i ≤ j → j < i + k → c j = some (q j)) :
    (∃ j, i ≤ j ∧ j < i + k ∧ q j = true ∧ (∀ j', i ≤ j' → j' < j → q j' = false) ∧
        loopFind c k i = some (some j)) ∨
    ((∀ j, i ≤ j → j < i + k → q j = false) ∧ loopFind c k i = some none) := by
  induction k generalizing i with
  | zero => right; exact ⟨fun j h1 h2 => by omega, rfl⟩
  | succ k ih =>
    have hi : c i = some (q i) := h i (le_refl i) (by omega)
    cases hq : q i with
    | true =>
      left
      exact ⟨i, le_refl i, by omega, hq, fun j' h1 h2 => by omega, by simp [loopFind, hi, hq]⟩
    | false =>
      have hstep : loopFind c (k + 1) i = loopFind c k (i + 1) := by simp [loopFind, hi, hq]
      rcases ih (i + 1) (fun j h1 h2 => h j (by omega) (by omega)) with
        ⟨j, h1, h2, h3, h4, h5⟩ | ⟨h1, h2⟩
      · left
        refine ⟨j, by omega, by omega, h3, ?_, by rw [hstep, h5]⟩
        intro j' h6 h7
        by_cases e : j' = i
        · subst e; exact hq
        · exact h4 j' (by omega) h7
      · right
        refine ⟨?_, by rw [hstep, h2]⟩
        intro j h3 h4
        by_cases e : j = i
        · subst e; exact hq
        · exact h1 j (by omega) (by omega)

theorem timeSince_gt (now t limit : Int) (h0 : 0 ≤ limit) (h1 : limit < maxDuration) :
    timeSince now t > limit ↔ now - t > limit := by
  unfold timeSince
  simp only [maxDuration, minDuration] at *
  split_ifs with ha hb <;> constructor <;> intro h <;> omega

theorem loopFind_prop (c : Nat → Option Bool) (P : Nat → Prop) (n : Nat)
    (h : ∀ j, j < n → (c j = some true ∧ P j) ∨ (c j = some false ∧ ¬ P j)) :
    (∃ i, Lowest P n i ∧ loopFind c n 0 = some (some i)) ∨
    ((∀ j, j < n → ¬ P j) ∧ loopFind c n 0 = some none) := by
  have hq : ∀ j, 0 ≤ j → j < 0 + n → c j = some ((c j).getD false) := by
    intro j _ hj
    rcases h j (by omega) with ⟨e, _⟩ | ⟨e, _⟩ <;> simp [e]
  have hP : ∀ j, j < n → ((c j).getD false = true ↔ P j) := by
    intro j hj
    rcases h j hj with ⟨e, p⟩ | ⟨e, p⟩ <;> simp [e, p]
  rcases loopFind_cases c (fun j => (c j).getD false) n 0 hq with
    ⟨j, _, h2, h3, h4, h5⟩ | ⟨h1, h2⟩
  · left
    refine ⟨j, ⟨by omega, (hP j (by omega)).1 h3, ?_⟩, h5⟩
    intro j' hj' hp
    have := h4 j' (Nat.zero_le _) hj'
    rw [(hP j' (by omega)).2 hp] at this
    exact Bool.noConfusion this
  · right
    refine ⟨?_, h2⟩
    intro j hj hp
    have := h1 j (Nat.zero_le _) (by omega)
    rw [(hP j hj).2 hp] at this
    exact Bool.noConfusion this

theorem Lowest_unique (P : Nat → Prop) (n i j : Nat) (hi : Lowest P n i) (hj : Lowest P n j) :
    i = j := by
  rcases Nat.lt_trichotomy i j with h | h | h
  · exact absurd hi.2.1 (hj.2.2 i h)
  · exact h
  · exact absurd hj.2.1 (hi.2.2 j h)

theorem isIdleAt_spec (st : List TaskStatus) (j : Nat) (hj : j < st.length) :
    (isIdleAt st j = some true ∧ statusAt st j = some Status.idle) ∨
    (isIdleAt st j = some false ∧ ¬ statusAt st j = some Status.idle) := by
  unfold isIdleAt statusAt
  rw [List.getElem?_eq_getElem hj]
  by_cases e : st[j].Status = Status.idle <;> simp [e]

theorem isNotDoneAt_spec (st : List TaskStatus) (j : Nat) (hj : j < st.length) :
    (isNotDoneAt st j = some true ∧ ¬ statusAt st j = some Status.done) ∨
    (isNotDoneAt st j = some false ∧ ¬ ¬ statusAt st j = some Status.done) := by
  unfold isNotDoneAt statusAt
  rw [List.getElem?_eq_getElem hj]
  by_cases e : st[j].Status = Status.done <;> simp [e]

theorem isTimedOutAt_spec (st : List TaskStatus) (now limit : Int) (h0 : 0 ≤ limit)
    (h1 : limit < maxDuration) (j : Nat) (hj : j < st.length) :
    (isTimedOutAt st now limit j = some true ∧ TimedOut st now limit j) ∨
    (isTimedOutAt st now limit j = some false ∧ ¬ TimedOut st now limit j) := by
  unfold isTimedOutAt TimedOut
  rw [List.getElem?_eq_getElem hj]
  have ht := timeSince_gt now st[j].AssignedAt limit h0 h1
  by_cases e : st[j].Status = Status.inProgress
  · by_cases t : now - st[j].AssignedAt > limit
    · left
      refine ⟨by simp [e, ht.2 t], st[j], rfl, e, t⟩
    · right
      refine ⟨?_, ?_⟩
      · have : ¬ timeSince now st[j].AssignedAt > limit := fun c => t (ht.1 c)
        simp [e, this]
      · rintro ⟨s, hs, _, hs2⟩
        cases hs
        exact t hs2
  · right
    refine ⟨by simp [e], ?_⟩
    rintro ⟨s, hs, hs1, _⟩
    cases hs
    exact e hs1

theorem second_bounds : (0 : Int) ≤ 5 * second ∧ 5 * second < maxDuration ∧
    (0 : Int) ≤ 10 * second ∧ 10 * second < maxDuration := by
  unfold second maxDuration; omega

theorem allDone_iff (st : List TaskStatus) :
    AllDone st ↔ ∀ j, j < st.length → ¬ ¬ statusAt st j = some Status.done := by
  unfold AllDone
  constructor
  · intro h j hj; exact not_not.2 (h j hj)
  · intro h j hj; exact not_not.1 (h j hj)

theorem RequestTask_cases (m : Master) (now : Int) (h : m.WF) :
    (∃ i d, Lowest (fun j => statusAt m.mapStatus j = some Status.idle) m.numMap i ∧
        m.inputFiles[i]? = some d ∧
        RequestTask m now = some (⟨MapTask, i, i, d⟩,
          { m with mapStatus := m.mapStatus.set i ⟨Status.inProgress, now⟩ })) ∨
    (∃ i s d, (∀ j, j < m.numMap → ¬ statusAt m.mapStatus j = some Status.idle) ∧
        Lowest (TimedOut m.mapStatus now (5 * second)) m.numMap i ∧
        m.mapStatus[i]? = some s ∧ m.inputFiles[i]? = some d ∧
        RequestTask m now = some (⟨MapTask, i, i, d⟩,
          { m with mapStatus := m.mapStatus.set i { s with AssignedAt := now } })) ∨
    ((∀ j, j < m.numMap → ¬ statusAt m.mapStatus j = some Status.idle) ∧
        (∀ j, j < m.numMap → ¬ TimedOut m.mapStatus now (5 * second) j) ∧
        ¬ AllDone m.mapStatus ∧
        RequestTask m now = some (⟨NoTask, 0, 0, ""⟩, m)) ∨
    (∃ i, AllDone m.mapStatus ∧
        Lowest (fun j => statusAt m.reduceStatus j = some Status.idle) m.numReduce i ∧
        RequestTask m now = some (⟨ReduceTask, i, i, ""⟩,
          { m with reduceStatus := m.reduceStatus.set i ⟨Status.inProgress, now⟩ })) ∨
    (∃ i s, AllDone m.mapStatus ∧
        (∀ j, j < m.numReduce → ¬ statusAt m.reduceStatus j = some Status.idle) ∧
        Lowest (TimedOut m.reduceStatus now (10 * second)) m.numReduce i ∧
        m.reduceStatus[i]? = some s ∧
        RequestTask m now = some (⟨ReduceTask, i, i, ""⟩,
          { m with reduceStatus := m.reduceStatus.set i { s with AssignedAt := now } })) ∨
    (AllDone m.mapStatus ∧
        (∀ j, j < m.numReduce → ¬ statusAt m.reduceStatus j = some Status.idle) ∧
        (∀ j, j < m.numReduce → ¬ TimedOut m.reduceStatus now (10 * second) j) ∧
        RequestTask m now = some (⟨NoTask, 0, 0, ""⟩, m)) := by
  obtain ⟨hin, hmap, hred, _⟩ := h
  obtain ⟨b1, b2, b3, b4⟩ := second_bounds
  have getIn : ∀ i, i < m.numMap → ∃ d, m.inputFiles[i]? = some d := fun i hi =>
    ⟨m.inputFiles[i], List.getElem?_eq_getElem (by omega)⟩
  have getMap : ∀ i, i < m.numMap → ∃ s, m.mapStatus[i]? = some s := fun i hi =>
    ⟨m.mapStatus[i], List.getElem?_eq_getElem (by omega)⟩
  have getRed : ∀ i, i < m.numReduce → ∃ s, m.reduceStatus[i]? = some s := fun i hi =>
    ⟨m.reduceStatus[i], List.getElem?_eq_getElem (by omega)⟩
  rcases loopFind_prop (isIdleAt m.mapStatus) _ m.numMap
    (fun j hj => isIdleAt_spec m.mapStatus j (by omega)) with ⟨i, hl, e1⟩ | ⟨n1, e1⟩
  · left
    obtain ⟨d, hd⟩ := getIn i hl.1
    exact ⟨i, d, hl, hd, by simp [RequestTask, e1, hd]⟩
  right
  rcases loopFind_prop (isTimedOutAt m.mapStatus now (5 * second)) _ m.numMap
    (fun j hj => isTimedOutAt_spec m.mapStatus now _ b1 b2 j (by omega)) with
    ⟨i, hl, e2⟩ | ⟨n2, e2⟩
  · left
    obtain ⟨d, hd⟩ := getIn i hl.1
    obtain ⟨s, hs⟩ := getMap i hl.1
    exact ⟨i, s, d, n1, hl, hs, hd, by simp [RequestTask, e1, e2, hd, hs]⟩
  right
  rcases loopFind_prop (isNotDoneAt m.mapStatus) _ m.numMap
    (fun j hj => isNotDoneAt_spec m.mapStatus j (by omega)) with ⟨i, hl, e3⟩ | ⟨n3, e3⟩
  · left
    refine ⟨n1, n2, ?_, by simp [RequestTask, e1, e2, e3]⟩
    intro hall
    exact hl.2.1 (hall i (by have := hl.1; omega))
  right
  have hall : AllDone m.mapStatus := by
    rw [allDone_iff]; intro j hj; exact n3 j (by omega)
  rcases loopFind_prop (isIdleAt m.reduceStatus) _ m.numReduce
    (fun j hj => isIdleAt_spec m.reduceStatus j (by omega)) with ⟨i, hl, e4⟩ | ⟨n4, e4⟩
  · left
    exact ⟨i, hall, hl, by simp [RequestTask, e1, e2, e3, e4]⟩
  right
  rcases loopFind_prop (isTimedOutAt m.reduceStatus now (10 * second)) _ m.numReduce
    (fun j hj => isTimedOutAt_spec m.reduceStatus now _ b3 b4 j (by omega)) with
    ⟨i, hl, e5⟩ | ⟨n5, e5⟩
  · left
    obtain ⟨s, hs⟩ := getRed i hl.1
    exact ⟨i, s, hall, n4, hl, hs, by simp [RequestTask, e1, e2, e3, e4, e5, hs]⟩
  right
  exact ⟨hall, n4, n5, by simp [RequestTask, e1, e2, e3, e4, e5]⟩

theorem lookupList_setList {K V : Type} [DecidableEq K] (k k' : K) (v : V) (l : List (K × V)) :
    lookupList k' (setList k v l) = if k = k' then some v else lookupList k' l := by
  induction l with
  | nil => simp [setList, lookupList]
  | cons e t ih =>
    obtain ⟨a, b⟩ := e
    by_cases h : a = k
    · subst h
      by_cases h' : a = k' <;> simp [setList, lookupList, h']
    · by_cases h' : k = k'
      · subst h'
        simp [setList, lookupList, h, ih]
      · by_cases h2 : a = k'
        · subst h2
          simp [setList, lookupList, h, h']
        · simp [setList, lookupList, h, h', h2, ih]

theorem get_set_self {K V : Type} [DecidableEq K] (m : GoMap K V) (k : K) (v : V) :
    (m.set k v).get? k = some v := by
  simp [GoMap.get?, GoMap.set, lookupList_setList]

theorem get_set_other {K V : Type} [DecidableEq K] (m : GoMap K V) (k k' : K) (v : V)
    (h : k ≠ k') : (m.set k v).get? k' = m.get? k' := by
  simp [GoMap.get?, GoMap.set, lookupList_setList, h]

theorem newIntermediate_succ (n : Nat) :
    newIntermediate (n + 1) = (newIntermediate n).set (n : Int) GoMap.empty := by
  simp [newIntermediate, List.range_succ, List.foldl_append]

theorem newIntermediate_get (n r : Nat) (h : r < n) :
    (newIntermediate n).get? (r : Int) = some GoMap.empty := by
  induction n with
  | zero => omega
  | succ n ih =>
    rw [newIntermediate_succ]
    by_cases e : r = n
    · subst e; exact get_set_self _ _ _
    · rw [get_set_other _ _ _ _ (by omega)]
      exact ih (by omega)

theorem NewMaster_WF (inputs : List String) (numReduce : Nat) :
    (NewMaster inputs numReduce).WF := by
  refine ⟨rfl, by simp [NewMaster], by simp [NewMaster], ?_⟩
  intro r hr
  show ((newIntermediate numReduce).get? (r : Int)).isSome = true
  rw [newIntermediate_get numReduce r hr]
  rfl

theorem Success_cases (m : Master) (h : m.WF) :
    (AllDone m.mapStatus ∧ AllDone m.reduceStatus ∧ Success m = some true) ∨
    (¬ (AllDone m.mapStatus ∧ AllDone m.reduceStatus) ∧ Success m = some false) := by
  obtain ⟨_, hmap, hred, _⟩ := h
  rcases loopFind_prop (isNotDoneAt m.mapStatus) _ m.numMap
    (fun j hj => isNotDoneAt_spec m.mapStatus j (by omega)) with ⟨i, hl, e1⟩ | ⟨n1, e1⟩
  · right
    refine ⟨?_, by simp [Success, e1]⟩
    rintro ⟨hall, _⟩
    exact hl.2.1 (hall i (by have := hl.1; omega))
  have hall : AllDone m.mapStatus := by
    rw [allDone_iff]; intro j hj; exact n1 j (by omega)
  rcases loopFind_prop (isNotDoneAt m.reduceStatus) _ m.numReduce
    (fun j hj => isNotDoneAt_spec m.reduceStatus j (by omega)) with ⟨i, hl, e2⟩ | ⟨n2, e2⟩
  · right
    refine ⟨?_, by simp [Success, e1, e2]⟩
    rintro ⟨_, hall2⟩
    exact hl.2.1 (hall2 i (by have := hl.1; omega))
  left
  refine ⟨hall, ?_, by simp [Success, e1, e2]⟩
  rw [allDone_iff]; intro j hj; exact n2 j (by omega)

theorem allDone_replicate_idle (n : Nat) (t : Int) :
    AllDone (List.replicate n (⟨Status.idle, t⟩ : TaskStatus)) ↔ n = 0 := by
  constructor
  · intro h
    by_contra hn
    have := h 0 (by simp; omega)
    simp [statusAt, List.getElem?_replicate] at this
  · intro h; subst h; intro i hi; simp at hi

theorem appendInner_get (inner : GoMap String (List String)) (kvs : List KeyValue)
    (k : String) :
    (appendInner inner kvs).get? k =
      if valuesOf k kvs = [] then inner.get? k
      else some ((inner.get? k).getD [] ++ valuesOf k kvs) := by
  induction kvs generalizing inner with
  | nil => simp [appendInner, valuesOf]
  | cons kv kvs ih =>
    rw [appendInner, ih]
    by_cases e : kv.Key = k
    · subst e
      rw [get_set_self]
      have hv : valuesOf kv.Key (kv :: kvs) = kv.Value :: valuesOf kv.Key kvs := by
        simp [valuesOf]
      rw [hv]
      by_cases hn : valuesOf kv.Key kvs = [] <;> simp [hn]
    · rw [get_set_other _ _ _ _ e]
      have hv : valuesOf k (kv :: kvs) = valuesOf k kvs := by
        simp [valuesOf, e]
      rw [hv]

theorem appendAll_spec (store : GoMap Int (GoMap String (List String))) (r : Int)
    (kvs : List KeyValue) (inner : GoMap String (List String))
    (h : store.get? r = some inner) :
    ∃ store', appendAll store r kvs = some store' ∧
      store'.get? r = some (appendInner inner kvs) ∧
      ∀ r', r' ≠ r → store'.get? r' = store.get? r' := by
  induction kvs generalizing store inner with
  | nil => exact ⟨store, rfl, h, fun _ _ => rfl⟩
  | cons kv kvs ih =>
    have h1 : appendValue store r kv = some (store.set r
        (inner.set kv.Key ((inner.get? kv.Key).getD [] ++ [kv.Value]))) := by
      simp [appendValue, h]
    obtain ⟨store', e, g1, g2⟩ := ih (store.set r
      (inner.set kv.Key ((inner.get? kv.Key).getD [] ++ [kv.Value]))) _ (get_set_self _ _ _)
    refine ⟨store', by simp [appendAll, h1, e], by rw [g1]; rfl, ?_⟩
    intro r' hr'
    rw [g2 r' hr', get_set_other _ _ _ _ (Ne.symm hr')]

theorem lookupList_none {K V : Type} [DecidableEq K] (k : K) (l : List (K × V))
    (h : k ∉ l.map Prod.fst) : lookupList k l = none := by
  induction l with
  | nil => rfl
  | cons e t ih =>
    obtain ⟨a, b⟩ := e
    simp only [List.map_cons, List.mem_cons, not_or] at h
    simp [lookupList, Ne.symm h.1, ih h.2]

theorem lookupList_some_mem {K V : Type} [DecidableEq K] (k : K) (v : V) (l : List (K × V))
    (h : lookupList k l = some v) : (k, v) ∈ l := by
  induction l with
  | nil => simp [lookupList] at h
  | cons e t ih =>
    obtain ⟨a, b⟩ := e
    by_cases e : a = k
    · subst e
      simp [lookupList] at h
      simp [h]
    · simp [lookupList, e] at h
      exact List.mem_cons_of_mem _ (ih h)

theorem appendPartitions_spec (store : GoMap Int (GoMap String (List String)))
    (entries : List (Int × List KeyValue)) (hnodup : (entries.map Prod.fst).Nodup)
    (hkeys : ∀ r, r ∈ entries.map Prod.fst → (store.get? r).isSome = true) :
    ∃ store', appendPartitions store entries = some store' ∧
      ∀ r, store'.get? r =
        (store.get? r).map (fun inner => appendInner inner ((lookupList r entries).getD [])) := by
  induction entries generalizing store with
  | nil =>
    refine ⟨store, rfl, ?_⟩
    intro r
    cases store.get? r <;> simp [lookupList, appendInner]
  | cons e rest ih =>
    obtain ⟨r0, kvs0⟩ := e
    simp only [List.map_cons, List.nodup_cons] at hnodup
    obtain ⟨inner0, hin⟩ := Option.isSome_iff_exists.1 (hkeys r0 (by simp))
    obtain ⟨s1, e1, g1, g2⟩ := appendAll_spec store r0 kvs0 inner0 hin
    have hk1 : ∀ r, r ∈ rest.map Prod.fst → (s1.get? r).isSome = true := by
      intro r hr
      have hne : r ≠ r0 := fun c => hnodup.1 (c ▸ hr)
      rw [g2 r hne]
      exact hkeys r (by simp only [List.map_cons, List.mem_cons]; exact Or.inr hr)
    obtain ⟨s2, e2, g3⟩ := ih s1 hnodup.2 hk1
    refine ⟨s2, by simp [appendPartitions, e1, e2], ?_⟩
    intro r
    rw [g3 r]
    by_cases hr : r = r0
    · subst hr
      rw [g1, hin, lookupList_none r rest hnodup.1]
      simp [lookupList, appendInner]
    · rw [g2 r hr]
      simp [lookupList, Ne.symm hr]

theorem setDone_spec (st : List TaskStatus) (id : Int) (h0 : 0 ≤ id) (h1 : id < st.length) :
    ∃ s, st[id.toNat]? = some s ∧
      setDone st id = some (st.set id.toNat { s with Status := Status.done }) := by
  have hlt : id.toNat < st.length := by omega
  refine ⟨st[id.toNat], List.getElem?_eq_getElem hlt, ?_⟩
  simp [setDone, h0, List.getElem?_eq_getElem hlt]

theorem statusAt_set (st : List TaskStatus) (i j : Nat) (s : TaskStatus) :
    statusAt (st.set i s) j =
      if i = j then (if i < st.length then some s.Status else none) else statusAt st j := by
  unfold statusAt
  rw [List.getElem?_set]
  by_cases e : i = j
  · by_cases l : i < st.length <;> simp [e, l]
  · simp [e]

theorem allDone_set_done (st : List TaskStatus) (i : Nat) (s : TaskStatus)
    (hs : s.Status = Status.done) (h : AllDone st) : AllDone (st.set i s) := by
  intro j hj
  rw [List.length_set] at hj
  rw [statusAt_set]
  by_cases e : i = j
  · subst e; simp [hj, hs]
  · simp [e, h j hj]

theorem ReportMapSuccess_spec (m : Master) (h : m.WF) (mapID : Int)
    (partitions : GoMap Int (List KeyValue))
    (hmap : 0 ≤ mapID ∧ mapID < (m.numMap : Int)) (hparts : PartitionsInRange m partitions) :
    ∃ store' s, m.mapStatus[mapID.toNat]? = some s ∧
      (∀ r, store'.get? r = (m.intermediateFiles.get? r).map
        (fun inner => appendInner inner (bucketOf partitions r))) ∧
      ReportMapSuccess m mapID partitions = some
        { m with intermediateFiles := store',
                 mapStatus := m.mapStatus.set mapID.toNat { s with Status := Status.done } } := by
  obtain ⟨_, hlen, _, hstore⟩ := h
  have hkeys : ∀ r, r ∈ partitions.entries.map Prod.fst →
      (m.intermediateFiles.get? r).isSome = true := by
    intro r hr
    obtain ⟨r0, r1⟩ := hparts r hr
    have e : ((r.toNat : Nat) : Int) = r := Int.toNat_of_nonneg r0
    have := hstore r.toNat (by omega)
    rw [e] at this
    exact this
  obtain ⟨store', e1, g⟩ := appendPartitions_spec m.intermediateFiles partitions.entries
    partitions.nodup hkeys
  obtain ⟨s, hs, e2⟩ := setDone_spec m.mapStatus mapID hmap.1 (by omega)
  exact ⟨store', s, hs, g, by simp [ReportMapSuccess, e1, e2]⟩

theorem ReportReduceSuccess_spec (m : Master) (h : m.WF) (reduceID : Int) (output : String)
    (hred : 0 ≤ reduceID ∧ reduceID < (m.numReduce : Int)) :
    ∃ s, m.reduceStatus[reduceID.toNat]? = some s ∧
      ReportReduceSuccess m reduceID output = some
        { m with outputFiles := m.outputFiles.set reduceID output,
                 reduceStatus :=
                   m.reduceStatus.set reduceID.toNat { s with Status := Status.done } } := by
  obtain ⟨_, _, hlen, _⟩ := h
  obtain ⟨s, hs, e2⟩ := setDone_spec m.reduceStatus reduceID hred.1 (by omega)
  exact ⟨s, hs, by simp [ReportReduceSuccess, e2]⟩

theorem WF_of_fields (m m' : Master) (h : m.WF) (h1 : m'.numMap = m.numMap)
    (h2 : m'.numReduce = m.numReduce) (h3 : m'.inputFiles = m.inputFiles)
    (h4 : m'.mapStatus.length = m.mapStatus.length)
    (h5 : m'.reduceStatus.length = m.reduceStatus.length)
    (h6 : ∀ r, (m.intermediateFiles.get? r).isSome = true →
      (m'.intermediateFiles.get? r).isSome = true) : m'.WF := by
  obtain ⟨a, b, c, d⟩ := h
  refine ⟨by rw [h3, h1]; exact a, by rw [h4, h1]; exact b, by rw [h5, h2]; exact c, ?_⟩
  intro r hr
  exact h6 _ (d r (by omega))

theorem ReportMapSuccess_WF (m m' : Master) (h : m.WF) (mapID : Int)
    (partitions : GoMap Int (List KeyValue))
    (hmap : 0 ≤ mapID ∧ mapID < (m.numMap : Int)) (hparts : PartitionsInRange m partitions)
    (e : ReportMapSuccess m mapID partitions = some m') : m'.WF := by
  obtain ⟨store', s, _, g, e'⟩ := ReportMapSuccess_spec m h mapID partitions hmap hparts
  rw [e] at e'
  cases e'
  refine WF_of_fields m _ h rfl rfl rfl (by simp) rfl ?_
  intro r hr
  show (store'.get? r).isSome = true
  rw [g r]
  obtain ⟨x, hx⟩ := Option.isSome_iff_exists.1 hr
  simp [hx]

theorem ReportReduceSuccess_WF (m m' : Master) (h : m.WF) (reduceID : Int) (output : String)
    (hred : 0 ≤ reduceID ∧ reduceID < (m.numReduce : Int))
    (e : ReportReduceSuccess m reduceID output = some m') : m'.WF := by
  obtain ⟨s, _, e'⟩ := ReportReduceSuccess_spec m h reduceID output hred
  rw [e] at e'
  cases e'
  exact WF_of_fields m _ h rfl rfl rfl rfl (by simp) (fun _ hr => hr)

theorem RequestTask_WF (m m' : Master) (t : Task) (now : Int) (h : m.WF)
    (e : RequestTask m now = some (t, m')) : m'.WF := by
  rcases RequestTask_cases m now h with ⟨i, d, _, _, e'⟩ | ⟨i, s, d, _, _, _, _, e'⟩ |
    ⟨_, _, _, e'⟩ | ⟨i, _, _, e'⟩ | ⟨i, s, _, _, _, _, e'⟩ | ⟨_, _, _, e'⟩ <;>
  · rw [e] at e'
    cases e'
    first
      | exact h
      | exact WF_of_fields m _ h rfl rfl rfl (by simp) (by simp) (fun _ hr => hr)

theorem Success_true_iff (m : Master) (h : m.WF) :
    Success m = some true ↔ AllDone m.mapStatus ∧ AllDone m.reduceStatus := by
  rcases Success_cases m h with ⟨h1, h2, e⟩ | ⟨h1, e⟩
  · simp [e, h1, h2]
  · rw [e]; simp only [Option.some.injEq, Bool.false_eq_true, false_iff]; exact h1

theorem neverRegresses_refl (st : List TaskStatus) : NeverRegresses st st := by
  refine ⟨rfl, ?_⟩
  intro i s s' h1 h2
  rw [h1] at h2
  cases h2
  refine ⟨le_refl _, fun e => e, ?_⟩
  intro e c
  rw [e] at c
  exact Status.noConfusion c

theorem neverRegresses_set (st : List TaskStatus) (i : Nat) (s x : TaskStatus)
    (hs : st[i]? = some s) (hrank : s.Status.rank ≤ x.Status.rank) :
    NeverRegresses st (st.set i x) := by
  refine ⟨by simp, ?_⟩
  intro j a b h1 h2
  rw [List.getElem?_set] at h2
  by_cases e : i = j
  · subst e
    rw [hs] at h1
    cases h1
    have hlt : i < st.length := by
      by_contra hge
      have : st[i]? = none := List.getElem?_eq_none (by omega)
      rw [this] at hs
      exact Option.noConfusion hs
    simp [hlt] at h2
    subst h2
    refine ⟨hrank, ?_, ?_⟩
    · intro ed
      rw [ed] at hrank
      cases hx : x.Status <;> rw [hx] at hrank <;> simp [Status.rank] at hrank
    · intro ed c
      rw [ed, c] at hrank
      simp [Status.rank] at hrank
  · simp [e] at h2
    rw [h1] at h2
    cases h2
    exact (neverRegresses_refl st).2 j a a h1 h1

theorem storeValues_append (store store' : GoMap Int (GoMap String (List String)))
    (bucket : List KeyValue) (r : Int)
    (hg : store'.get? r = (store.get? r).map (fun inner => appendInner inner bucket))
    (hnone : store.get? r = none → bucket = []) (k : String) :
    storeValues store' r k = storeValues store r k ++ valuesOf k bucket := by
  unfold storeValues
  rw [hg]
  cases hs : store.get? r with
  | none =>
    rw [hnone hs]
    simp [valuesOf]
  | some inner =>
    simp only [Option.map_some', Option.some_bind]
    rw [appendInner_get]
    by_cases hv : valuesOf k bucket = []
    · simp [hv]
    · simp [hv]

theorem bucketOf_absent (m : Master) (h : m.WF) (partitions : GoMap Int (List KeyValue))
    (hparts : PartitionsInRange m partitions) (r : Int)
    (hr : m.intermediateFiles.get? r = none) : bucketOf partitions r = [] := by
  have hnot : r ∉ partitions.entries.map Prod.fst := by
    intro hmem
    obtain ⟨r0, r1⟩ := hparts r hmem
    have e : ((r.toNat : Nat) : Int) = r := Int.toNat_of_nonneg r0
    have := h.2.2.2 r.toNat (by omega)
    rw [e, hr] at this
    exact Bool.noConfusion this
  simp [bucketOf, GoMap.get?, lookupList_none r _ hnot]

theorem valuesOf_ne_nil (kv : KeyValue) (kvs : List KeyValue) (h : kv ∈ kvs) :
    valuesOf kv.Key kvs ≠ [] := by
  intro c
  have hm : kv ∈ kvs.filter (fun x => decide (x.Key = kv.Key)) := by
    simp [List.mem_filter, h]
  unfold valuesOf at c
  rw [List.map_eq_nil_iff] at c
  rw [c] at hm
  exact List.not_mem_nil _ hm

theorem flatten_setList_append {K V : Type} [DecidableEq K] (k : K) (x : V)
    (l : List (K × List V)) :
    (((setList k ((lookupList k l).getD [] ++ [x]) l).map Prod.snd).flatten).Perm
      ((l.map Prod.snd).flatten ++ [x]) := by
  induction l with
  | nil => simp [setList, lookupList]
  | cons e t ih =>
    obtain ⟨a, b⟩ := e
    by_cases h : a = k
    · subst h
      simp only [lookupList, setList, if_true, Option.getD_some, List.map_cons,
        List.flatten_cons, List.append_assoc]
      exact List.Perm.append_left b List.perm_append_comm
    · simp only [lookupList, setList, h, if_false, List.map_cons, List.flatten_cons,
        List.append_assoc]
      exact List.Perm.append_left b ih

theorem bucketOf_set (partitions : GoMap Int (List KeyValue)) (r r' : Int)
    (v : List KeyValue) :
    bucketOf (partitions.set r v) r' = if r = r' then v else bucketOf partitions r' := by
  unfold bucketOf
  by_cases e : r = r'
  · subst e; simp [get_set_self]
  · simp [get_set_other _ _ _ _ e, e]

theorem fillBuckets_spec (ihash : String → Int) (numReduce : Nat) (hn : 1 ≤ numReduce)
    (partitions : GoMap Int (List KeyValue)) (kvs : List KeyValue) :
    ∃ parts, fillBuckets ihash numReduce partitions kvs = some parts ∧
      (∀ r, bucketOf parts r = bucketOf partitions r ++
        kvs.filter (fun kv => decide (Int.tmod (ihash kv.Key) (numReduce : Int) = r))) ∧
      (allPairs parts).Perm (allPairs partitions ++ kvs) := by
  induction kvs generalizing partitions with
  | nil => exact ⟨partitions, rfl, by simp, by simp⟩
  | cons kv kvs ih =>
    have hne : numReduce ≠ 0 := by omega
    have e1 : addToBucket ihash numReduce partitions kv =
        some (partitions.set (Int.tmod (ihash kv.Key) (numReduce : Int))
          (bucketOf partitions (Int.tmod (ihash kv.Key) (numReduce : Int)) ++ [kv])) := by
      simp [addToBucket, hne, bucketOf]
    obtain ⟨parts, e2, g, p⟩ := ih (partitions.set (Int.tmod (ihash kv.Key) (numReduce : Int))
      (bucketOf partitions (Int.tmod (ihash kv.Key) (numReduce : Int)) ++ [kv]))
    refine ⟨parts, by simp [fillBuckets, e1, e2], ?_, ?_⟩
    · intro r
      rw [g r, bucketOf_set]
      by_cases e : Int.tmod (ihash kv.Key) (numReduce : Int) = r
      · subst e; simp
      · simp [e]
    · refine p.trans ?_
      have hp : (allPairs (partitions.set (Int.tmod (ihash kv.Key) (numReduce : Int))
          (bucketOf partitions (Int.tmod (ihash kv.Key) (numReduce : Int)) ++ [kv]))).Perm
          (allPairs partitions ++ [kv]) :=
        flatten_setList_append _ kv partitions.entries
      have := List.Perm.append_right kvs hp
      simpa using this

theorem foldl_collect {α : Type} (l acc : List α) :
    l.foldl (fun keys k => keys ++ [k]) acc = acc ++ l := by
  induction l generalizing acc with
  | nil => simp
  | cons a t ih => simp [ih]

theorem foldl_lines {α β : Type} (f : α → β) (l : List α) (acc : List β) :
    l.foldl (fun out c => out ++ [f c]) acc = acc ++ l.map f := by
  induction l generalizing acc with
  | nil => simp
  | cons a t ih => simp [ih]

theorem reduceKeys_sorted (partition : GoMap String (List String)) :
    (reduceKeys partition).Sorted strLE ∧ (reduceKeys partition).Perm partition.keys ∧
    (reduceKeys partition).Nodup := by
  have hk : reduceKeys partition = List.insertionSort strLE partition.keys := by
    simp [reduceKeys, sortStrings, foldl_collect]
  rw [hk]
  have hp := List.perm_insertionSort strLE partition.keys
  exact ⟨List.sorted_insertionSort strLE _, hp, hp.nodup_iff.2 partition.nodup⟩

theorem lookupList_of_mem {K V : Type} [DecidableEq K] (k : K) (v : V) (l : List (K × V))
    (hn : (l.map Prod.fst).Nodup) (h : (k, v) ∈ l) : lookupList k l = some v := by
  induction l with
  | nil => exact absurd h (List.not_mem_nil _)
  | cons e t ih =>
    obtain ⟨a, b⟩ := e
    simp only [List.map_cons, List.nodup_cons] at hn
    rcases List.mem_cons.1 h with h | h
    · cases h
      simp [lookupList]
    · have hk : k ∈ t.map Prod.fst := List.mem_map.2 ⟨(k, v), h, rfl⟩
      have hne : a ≠ k := fun c => hn.1 (c ▸ hk)
      simp [lookupList, hne, ih hn.2 h]

theorem lookupList_perm {K V : Type} [DecidableEq K] (k : K) (l1 l2 : List (K × V))
    (h1 : (l1.map Prod.fst).Nodup) (h2 : (l2.map Prod.fst).Nodup) (hp : l1.Perm l2) :
    lookupList k l1 = lookupList k l2 := by
  cases e1 : lookupList k l1 with
  | some v =>
    exact (lookupList_of_mem k v l2 h2 (hp.mem_iff.1 (lookupList_some_mem k v l1 e1))).symm
  | none =>
    cases e2 : lookupList k l2 with
    | none => rfl
    | some v =>
      have := lookupList_of_mem k v l1 h1 (hp.mem_iff.2 (lookupList_some_mem k v l2 e2))
      rw [e1] at this
      exact Option.noConfusion this

theorem reduceBlob_perm (reduceFn : ReduceFunc) (p q : GoMap String (List String))
    (hp : p.entries.Perm q.entries) : reduceBlob reduceFn p = reduceBlob reduceFn q := by
  have hkeys : (reduceKeys p) = (reduceKeys q) := by
    obtain ⟨s1, p1, _⟩ := reduceKeys_sorted p
    obtain ⟨s2, p2, _⟩ := reduceKeys_sorted q
    have hk : p.keys.Perm q.keys := hp.map Prod.fst
    exact List.eq_of_perm_of_sorted (p1.trans (hk.trans p2.symm)) s1 s2
  have hget : ∀ k, p.get? k = q.get? k := fun k =>
    lookupList_perm k _ _ p.nodup q.nodup hp
  simp [reduceBlob, reduceLines, reduceCalls, hkeys, hget]

theorem setList_absent {K V : Type} [DecidableEq K] (k : K) (v : V) (l : List (K × V))
    (h : k ∉ l.map Prod.fst) : setList k v l = l ++ [(k, v)] := by
  induction l with
  | nil => rfl
  | cons e t ih =>
    obtain ⟨a, b⟩ := e
    simp only [List.map_cons, List.mem_cons, not_or] at h
    simp [setList, Ne.symm h.1, ih h.2]

theorem foldl_copy (l : List (String × List String)) (acc : GoMap String (List String))
    (hn : (l.map Prod.fst).Nodup) (hd : ∀ k, k ∈ l.map Prod.fst → k ∉ acc.keys) :
    (l.foldl (fun copyMap e => copyMap.set e.1 e.2) acc).entries = acc.entries ++ l := by
  induction l generalizing acc with
  | nil => simp
  | cons e t ih =>
    obtain ⟨a, b⟩ := e
    simp only [List.map_cons, List.nodup_cons] at hn
    have ha : a ∉ acc.entries.map Prod.fst := hd a (by simp)
    have hset : (acc.set a b).entries = acc.entries ++ [(a, b)] :=
      setList_absent a b acc.entries ha
    simp only [List.foldl_cons]
    rw [ih (acc.set a b) hn.2, hset]
    · simp
    · intro k hk
      show k ∉ (acc.set a b).entries.map Prod.fst
      rw [hset]
      simp only [List.map_append, List.map_cons, List.map_nil, List.mem_append,
        List.mem_singleton, not_or]
      refine ⟨hd k (by simp only [List.map_cons, List.mem_cons]; exact Or.inr hk), ?_⟩
      intro c
      exact hn.1 (c ▸ hk)

theorem GetReducePartitions_entries (m : Master) (reduceID : Int) :
    (GetReducePartitions m reduceID).entries =
      ((m.intermediateFiles.get? reduceID).getD GoMap.empty).entries := by
  unfold GetReducePartitions
  rw [foldl_copy _ _ (GoMap.nodup _)]
  · rfl
  · intro k _ c
    exact List.not_mem_nil _ c

theorem GetReducePartitions_values (m : Master) (reduceID : Int) (k : String) :
    ((GetReducePartitions m reduceID).get? k).getD [] =
      storeValues m.intermediateFiles reduceID k := by
  unfold GoMap.get? storeValues
  rw [GetReducePartitions_entries]
  cases m.intermediateFiles.get? reduceID <;> simp [GoMap.get?, GoMap.empty, lookupList]

theorem not_timedOut_of_fresh (st : List TaskStatus) (now limit : Int) (j : Nat)
    (hfresh : ∀ s, st[j]? = some s → s.Status = Status.inProgress →
      now - s.AssignedAt ≤ limit) : ¬ TimedOut st now limit j := by
  rintro ⟨s, hs, hs1, hs2⟩
  have := hfresh s hs hs1
  omega

theorem setDone_inv (st st' : List TaskStatus) (id : Int) (h : setDone st id = some st') :
    0 ≤ id ∧ id < (st.length : Int) ∧
      ∃ s, st[id.toNat]? = some s ∧ st' = st.set id.toNat { s with Status := Status.done } := by
  unfold setDone at h
  by_cases h0 : 0 ≤ id
  · rw [if_pos h0] at h
    cases hs : st[id.toNat]? with
    | none => rw [hs] at h; exact Option.noConfusion h
    | some s =>
      rw [hs] at h
      simp only [Option.map_some', Option.some.injEq] at h
      have hlt : id.toNat < st.length := by
        by_contra c
        have : st[id.toNat]? = none := List.getElem?_eq_none (by omega)
        rw [this] at hs
        exact Option.noConfusion hs
      exact ⟨h0, by omega, s, rfl, h.symm⟩
  · rw [if_neg h0] at h
    exact Option.noConfusion h

theorem ReportMapSuccess_inv (m m' : Master) (mapID : Int)
    (partitions : GoMap Int (List KeyValue))
    (h : ReportMapSuccess m mapID partitions = some m') :
    ∃ store' st', appendPartitions m.intermediateFiles partitions.entries = some store' ∧
      setDone m.mapStatus mapID = some st' ∧
      m' = { m with intermediateFiles := store', mapStatus := st' } := by
  unfold ReportMapSuccess at h
  cases e1 : appendPartitions m.intermediateFiles partitions.entries with
  | none => simp [e1] at h
  | some store' =>
    cases e2 : setDone m.mapStatus mapID with
    | none => simp [e1, e2] at h
    | some st' =>
      simp [e1, e2] at h
      exact ⟨store', st', rfl, rfl, h.symm⟩

theorem ReportReduceSuccess_inv (m m' : Master) (reduceID : Int) (output : String)
    (h : ReportReduceSuccess m reduceID output = some m') :
    ∃ st', setDone m.reduceStatus reduceID = some st' ∧
      m' = { m with outputFiles := m.outputFiles.set reduceID output, reduceStatus := st' } := by
  unfold ReportReduceSuccess at h
  cases e2 : setDone m.reduceStatus reduceID with
  | none => simp [e2] at h
  | some st' =>
    simp [e2] at h
    exact ⟨st', rfl, h.symm⟩

theorem appendValue_keeps (store store' : GoMap Int (GoMap String (List String)))
    (r : Int) (kv : KeyValue) (h : appendValue store r kv = some store') (r' : Int)
    (hr : (store.get? r').isSome = true) : (store'.get? r').isSome = true := by
  unfold appendValue at h
  cases e : store.get? r with
  | none => simp [e] at h
  | some inner =>
    simp [e] at h
    subst h
    by_cases c : r = r'
    · subst c; rw [get_set_self]; rfl
    · rw [get_set_other _ _ _ _ c]; exact hr

theorem appendAll_keeps (store store' : GoMap Int (GoMap String (List String)))
    (r : Int) (kvs : List KeyValue) (h : appendAll store r kvs = some store') (r' : Int)
    (hr : (store.get? r').isSome = true) : (store'.get? r').isSome = true := by
  induction kvs generalizing store with
  | nil => simp [appendAll] at h; subst h; exact hr
  | cons kv kvs ih =>
    simp only [appendAll] at h
    cases e : appendValue store r kv with
    | none => simp [e] at h
    | some s1 =>
      simp [e] at h
      exact ih s1 h (appendValue_keeps _ _ _ _ e r' hr)

theorem appendPartitions_keeps (store store' : GoMap Int (GoMap String (List String)))
    (entries : List (Int × List KeyValue)) (h : appendPartitions store entries = some store')
    (r' : Int) (hr : (store.get? r').isSome = true) : (store'.get? r').isSome = true := by
  induction entries generalizing store with
  | nil => simp [appendPartitions] at h; subst h; exact hr
  | cons e rest ih =>
    obtain ⟨r0, kvs0⟩ := e
    simp only [appendPartitions] at h
    cases e1 : appendAll store r0 kvs0 with
    | none => simp [e1] at h
    | some s1 =>
      simp [e1] at h
      exact ih s1 h (appendAll_keeps _ _ _ _ e1 r' hr)

theorem step_WF (m m' : Master) (op : Op) (h : m.WF) (e : step m op = some m') : m'.WF := by
  cases op with
  | request now =>
    simp only [step] at e
    cases e1 : RequestTask m now with
    | none => simp [e1] at e
    | some p =>
      obtain ⟨t, m1⟩ := p
      simp [e1] at e
      subst e
      exact RequestTask_WF m _ t now h e1
  | reportMap mapID partitions =>
    obtain ⟨store', st', e1, e2, e3⟩ := ReportMapSuccess_inv m m' mapID partitions e
    obtain ⟨_, _, s, _, hst⟩ := setDone_inv _ _ _ e2
    subst e3
    refine WF_of_fields m _ h rfl rfl rfl ?_ rfl ?_
    · show st'.length = _
      rw [hst]; simp
    · intro r hr
      exact appendPartitions_keeps _ _ _ e1 r hr
  | reportReduce reduceID output =>
    obtain ⟨st', e2, e3⟩ := ReportReduceSuccess_inv m m' reduceID output e
    obtain ⟨_, _, s, _, hst⟩ := setDone_inv _ _ _ e2
    subst e3
    refine WF_of_fields m _ h rfl rfl rfl rfl ?_ (fun _ hr => hr)
    show st'.length = _
    rw [hst]; simp

theorem RequestTask_frame (m m' : Master) (t : Task) (now : Int) (h : m.WF)
    (e : RequestTask m now = some (t, m')) :
    m'.intermediateFiles = m.intermediateFiles ∧ m'.outputFiles = m.outputFiles ∧
    m'.inputFiles = m.inputFiles ∧ m'.numMap = m.numMap ∧ m'.numReduce = m.numReduce := by
  rcases RequestTask_cases m now h with ⟨i, d, _, _, e'⟩ | ⟨i, s, d, _, _, _, _, e'⟩ |
    ⟨_, _, _, e'⟩ | ⟨i, _, _, e'⟩ | ⟨i, s, _, _, _, _, e'⟩ | ⟨_, _, _, e'⟩ <;>
  · rw [e] at e'
    cases e'
    exact ⟨rfl, rfl, rfl, rfl, rfl⟩

theorem run_unreported (m mf : Master) (ops : List Op) (r : Int) (h : m.WF)
    (e : run m ops = some mf) (hops : ∀ op, op ∈ ops → reportsReduce r op = false)
    (h0 : m.outputFiles.get? r = none) : mf.outputFiles.get? r = none := by
  induction ops generalizing m with
  | nil => simp [run] at e; subst e; exact h0
  | cons op ops ih =>
    simp only [run] at e
    cases e1 : step m op with
    | none => simp [e1] at e
    | some m1 =>
      simp [e1] at e
      refine ih m1 (step_WF m m1 op h e1) e
        (fun o ho => hops o (List.mem_cons_of_mem _ ho)) ?_
      have hop := hops op (List.mem_cons_self _ _)
      cases op with
      | request now =>
        simp only [step] at e1
        cases e2 : RequestTask m now with
        | none => simp [e2] at e1
        | some p =>
          obtain ⟨t, m2⟩ := p
          simp [e2] at e1
          subst e1
          rw [(RequestTask_frame m _ t now h e2).2.1]
          exact h0
      | reportMap mapID partitions =>
        obtain ⟨store', st', _, _, e3⟩ := ReportMapSuccess_inv m m1 mapID partitions e1
        subst e3
        exact h0
      | reportReduce reduceID output =>
        obtain ⟨st', _, e3⟩ := ReportReduceSuccess_inv m m1 reduceID output e1
        subst e3
        have hne : reduceID ≠ r := by
          simpa [reportsReduce] using hop
        show (m.outputFiles.set reduceID output).get? r = none
        rw [get_set_other _ _ _ _ hne]
        exact h0

theorem RequestTask_barrier_step (m m' : Master) (task : Task) (now : Int) (h : m.WF)
    (e : RequestTask m now = some (task, m')) :
    (m'.mapStatus = m.mapStatus ∧ AllDone m.mapStatus) ∨
    (¬ AllDone m.mapStatus ∧ m'.reduceStatus = m.reduceStatus ∧ task.Typ ≠ ReduceTask) := by
  have hlen := h.2.1
  rcases RequestTask_cases m now h with ⟨i, d, hl, _, e'⟩ | ⟨i, s, d, _, hl, hs, _, e'⟩ |
    ⟨_, _, n, e'⟩ | ⟨i, hall, _, e'⟩ | ⟨i, s, hall, _, _, _, e'⟩ | ⟨hall, _, _, e'⟩
  · rw [e] at e'; cases e'
    right
    refine ⟨?_, rfl, fun c => TaskType.noConfusion c⟩
    intro hall
    have := hall i (by have := hl.1; omega)
    rw [hl.2.1] at this; simp at this
  · rw [e] at e'; cases e'
    right
    refine ⟨?_, rfl, fun c => TaskType.noConfusion c⟩
    intro hall
    obtain ⟨s', e1, e2, _⟩ := hl.2.1
    have := hall i (by have := hl.1; omega)
    simp [statusAt, e1, e2] at this
  · rw [e] at e'; cases e'
    right
    exact ⟨n, rfl, fun c => TaskType.noConfusion c⟩
  · rw [e] at e'; cases e'
    exact Or.inl ⟨rfl, hall⟩
  · rw [e] at e'; cases e'
    exact Or.inl ⟨rfl, hall⟩
  · rw [e] at e'; cases e'
    exact Or.inl ⟨rfl, hall⟩

theorem reachable_invariant (inputs : List String) (numReduce : Nat) (m : Master)
    (issued : List Task) (t : Int) (h : Reachable inputs numReduce m issued t) :
    m.WF ∧
    ((∃ task, task ∈ issued ∧ task.Typ = ReduceTask) → AllDone m.mapStatus) ∧
    ((∃ (i : Nat) (s : TaskStatus), m.reduceStatus[i]? = some s ∧ s.Status ≠ Status.idle) →
      AllDone m.mapStatus) := by
  induction h with
  | init t0 =>
    refine ⟨NewMaster_WF inputs numReduce, ?_, ?_⟩
    · rintro ⟨task, hmem, _⟩
      exact absurd hmem (List.not_mem_nil _)
    · rintro ⟨i, s, hs, hne⟩
      exfalso
      simp only [NewMaster, List.getElem?_replicate] at hs
      by_cases c : i < numReduce
      · simp [c] at hs
        subst hs
        exact hne rfl
      · simp [c] at hs
  | request m m' issued t now task _ _ e ih =>
    obtain ⟨hwf, hiss, hred⟩ := ih
    refine ⟨RequestTask_WF m m' task now hwf e, ?_, ?_⟩
    · rintro ⟨task', hmem', ht'⟩
      rcases RequestTask_barrier_step m m' task now hwf e with ⟨e1, hall⟩ | ⟨n, _, hty⟩
      · rw [e1]; exact hall
      · exfalso
        apply n
        apply hiss
        rcases List.mem_cons.1 hmem' with c | c
        · subst c; exact absurd ht' hty
        · exact ⟨task', c, ht'⟩
    · rintro ⟨i, s, hs, hne⟩
      rcases RequestTask_barrier_step m m' task now hwf e with ⟨e1, hall⟩ | ⟨n, e2, _⟩
      · rw [e1]; exact hall
      · exfalso
        apply n
        apply hred
        rw [e2] at hs
        exact ⟨i, s, hs, hne⟩
  | reportMap m m' issued t task partitions _ hmem hty e ih =>
    obtain ⟨hwf, hiss, hred⟩ := ih
    have hwf' := step_WF m m' (Op.reportMap task.TaskID partitions) hwf e
    obtain ⟨store', st', _, e2, e3⟩ := ReportMapSuccess_inv m m' _ partitions e
    obtain ⟨_, _, s, _, hst⟩ := setDone_inv _ _ _ e2
    subst e3
    have key : AllDone m.mapStatus → AllDone st' := by
      intro hall
      rw [hst]
      exact allDone_set_done _ _ _ rfl hall
    exact ⟨hwf', fun hex => key (hiss hex), fun hex => key (hred hex)⟩
  | reportReduce m m' issued t task output _ hmem hty e ih =>
    obtain ⟨hwf, hiss, hred⟩ := ih
    have hwf' := step_WF m m' (Op.reportReduce task.TaskID output) hwf e
    obtain ⟨st', _, e3⟩ := ReportReduceSuccess_inv m m' _ output e
    subst e3
    have hall : AllDone m.mapStatus := hiss ⟨task, hmem, hty⟩
    exact ⟨hwf', fun _ => hall, fun _ => hall⟩

theorem storeEntry_report (store store' : GoMap Int (GoMap String (List String)))
    (bucket : List KeyValue) (r : Int)
    (hg : store'.get? r = (store.get? r).map (fun inner => appendInner inner bucket))
    (hnone : store.get? r = none → bucket = []) (k : String) :
    storeEntry store' r k =
      if valuesOf k bucket = [] then storeEntry store r k
      else some ((storeEntry store r k).getD [] ++ valuesOf k bucket) := by
  unfold storeEntry
  rw [hg]
  cases hs : store.get? r with
  | none =>
    rw [hnone hs]
    simp [valuesOf]
  | some inner =>
    simp only [Option.map_some', Option.some_bind]
    exact appendInner_get inner bucket k

theorem reports_spec (m : Master) (h : m.WF)
    (reports : List (Int × GoMap Int (List KeyValue))) (hr : ReportsInRange m reports) :
    ∃ mf, run m (reportOps reports) = some mf ∧ mf.WF ∧
      mf.numMap = m.numMap ∧ mf.numReduce = m.numReduce ∧
      ∀ r k, storeEntry mf.intermediateFiles r k =
        if reportedValues reports r k = [] then storeEntry m.intermediateFiles r k
        else some ((storeEntry m.intermediateFiles r k).getD [] ++
          reportedValues reports r k) := by
  induction reports generalizing m with
  | nil => exact ⟨m, rfl, h, rfl, rfl, fun r k => by simp [reportedValues]⟩
  | cons rp rest ih =>
    obtain ⟨hmap, hparts⟩ := hr rp (List.mem_cons_self _ _)
    obtain ⟨store', s, _, g, e⟩ := ReportMapSuccess_spec m h rp.1 rp.2 hmap hparts
    have hwf := ReportMapSuccess_WF m _ h rp.1 rp.2 hmap hparts e
    have hr' : ReportsInRange
        { m with intermediateFiles := store',
                 mapStatus := m.mapStatus.set rp.1.toNat { s with Status := Status.done } }
        rest := fun x hx => hr x (List.mem_cons_of_mem _ hx)
    obtain ⟨mf, e2, hwf2, n1, n2, g2⟩ := ih _ hwf hr'
    refine ⟨mf, ?_, hwf2, n1, n2, ?_⟩
    · simp only [reportOps, List.map_cons, run, step, e, Option.some_bind]
      exact e2
    · intro r k
      rw [g2 r k]
      have g1 := storeEntry_report _ _ _ r (g r) (bucketOf_absent m h rp.2 hparts r) k
      have hv : reportedValues (rp :: rest) r k =
          valuesOf k (bucketOf rp.2 r) ++ reportedValues rest r k := by
        simp [reportedValues]
      show (if reportedValues rest r k = [] then storeEntry store' r k
        else some ((storeEntry store' r k).getD [] ++ reportedValues rest r k)) = _
      rw [hv, g1]
      by_cases c1 : valuesOf k (bucketOf rp.2 r) = [] <;>
        by_cases c2 : reportedValues rest r k = [] <;> simp [c1, c2]

theorem mem_keys_iff_lookup {K V : Type} [DecidableEq K] (k : K) (l : List (K × V)) :
    k ∈ l.map Prod.fst ↔ (lookupList k l).isSome = true := by
  induction l with
  | nil => simp [lookupList]
  | cons e t ih =>
    obtain ⟨a, b⟩ := e
    by_cases c : a = k
    · subst c; simp [lookupList]
    · simp only [List.map_cons, List.mem_cons, lookupList, c, if_false]
      rw [← ih]
      constructor
      · rintro (h | h)
        · exact absurd h.symm c
        · exact h
      · exact Or.inr

theorem reduceBlob_congr (reduceFn : ReduceFunc) (p q : GoMap String (List String))
    (hkeys : ∀ k, (p.get? k).isSome = (q.get? k).isSome)
    (hvals : ∀ k, reduceFn k ((p.get? k).getD []) = reduceFn k ((q.get? k).getD [])) :
    reduceBlob reduceFn p = reduceBlob reduceFn q := by
  have hk : p.keys.Perm q.keys := by
    unfold GoMap.keys
    rw [List.perm_ext_iff_of_nodup p.nodup q.nodup]
    intro k
    rw [mem_keys_iff_lookup, mem_keys_iff_lookup]
    have := hkeys k
    unfold GoMap.get? at this
    rw [this]
  have hrk : reduceKeys p = reduceKeys q := by
    obtain ⟨s1, p1, _⟩ := reduceKeys_sorted p
    obtain ⟨s2, p2, _⟩ := reduceKeys_sorted q
    exact List.eq_of_perm_of_sorted (p1.trans (hk.trans p2.symm)) s1 s2
  unfold reduceBlob reduceLines reduceCalls
  rw [foldl_lines, foldl_lines, hrk]
  simp only [List.map_map, List.nil_append]
  congr 1
  apply List.map_congr_left
  intro k _
  simp [hvals k]

theorem GetReducePartitions_get (m : Master) (reduceID : Int) (k : String) :
    (GetReducePartitions m reduceID).get? k = storeEntry m.intermediateFiles reduceID k := by
  unfold GoMap.get? storeEntry
  rw [GetReducePartitions_entries]
  cases m.intermediateFiles.get? reduceID <;> simp [GoMap.get?, GoMap.empty, lookupList]

theorem hashInRange_of_nonneg (ihash : String → Int) (numReduce : Nat) (hn : 1 ≤ numReduce)
    (h : ∀ k, 0 ≤ ihash k) : HashInRange ihash numReduce := by
  intro k
  exact ⟨Int.tmod_nonneg _ (h k), Int.tmod_lt_of_pos _ (by omega)⟩

theorem fillBuckets_keys (ihash : String → Int) (numReduce : Nat)
    (partitions parts : GoMap Int (List KeyValue)) (kvs : List KeyValue)
    (e : fillBuckets ihash numReduce partitions kvs = some parts) (r : Int)
    (hr : r ∈ parts.keys) :
    r ∈ partitions.keys ∨
      ∃ kv, kv ∈ kvs ∧ Int.tmod (ihash kv.Key) (numReduce : Int) = r := by
  induction kvs generalizing partitions with
  | nil =>
    simp only [fillBuckets, Option.some.injEq] at e
    subst e
    exact Or.inl hr
  | cons kv kvs ih =>
    simp only [fillBuckets] at e
    cases e1 : addToBucket ihash numReduce partitions kv with
    | none => simp [e1] at e
    | some p1 =>
      simp only [e1, Option.some_bind] at e
      unfold addToBucket at e1
      by_cases hn : numReduce = 0
      · simp [hn] at e1
      · simp only [hn, if_false, Option.some.injEq] at e1
        subst e1
        rcases ih _ e with h1 | ⟨kv', h1, h2⟩
        · have hk : r ∈ (setList (Int.tmod (ihash kv.Key) (numReduce : Int))
              ((partitions.get? (Int.tmod (ihash kv.Key) (numReduce : Int))).getD [] ++ [kv])
              partitions.entries).map Prod.fst := h1
          rw [keys_setList] at hk
          split_ifs at hk with c
          · exact Or.inl hk
          · rcases List.mem_append.1 hk with c1 | c1
            · exact Or.inl c1
            · right
              exact ⟨kv, List.mem_cons_self _ _, (List.mem_singleton.1 c1).symm⟩
        · exact Or.inr ⟨kv', List.mem_cons_of_mem _ h1, h2⟩

theorem doMap_spec (ihash : String → Int) (w : Worker) (m : Master) (task : Task) (h : m.WF)
    (hn : 1 ≤ m.numReduce) (hh : HashInRange ihash m.numReduce)
    (hid : 0 ≤ task.TaskID ∧ task.TaskID < (m.numMap : Int)) :
    ∃ store' s, m.mapStatus[task.TaskID.toNat]? = some s ∧
      (∀ r, store'.get? r = (m.intermediateFiles.get? r).map (fun inner =>
        appendInner inner (routedTo ihash m.numReduce r
          (w.mapFn ("doc-" ++ toString task.ChunkIndex) task.Data)))) ∧
      (∀ r, m.intermediateFiles.get? r = none →
        routedTo ihash m.numReduce r
          (w.mapFn ("doc-" ++ toString task.ChunkIndex) task.Data) = []) ∧
      doMap ihash w m task = some
        { m with intermediateFiles := store',
                 mapStatus :=
                   m.mapStatus.set task.TaskID.toNat { s with Status := Status.done } } := by
  obtain ⟨parts, e, g, _⟩ := fillBuckets_spec ihash m.numReduce hn GoMap.empty
    (w.mapFn ("doc-" ++ toString task.ChunkIndex) task.Data)
  have hb : ∀ r, bucketOf parts r = routedTo ihash m.numReduce r
      (w.mapFn ("doc-" ++ toString task.ChunkIndex) task.Data) := by
    intro r
    rw [g r]
    show [] ++ _ = _
    rfl
  have hparts : PartitionsInRange m parts := by
    intro r hr
    rcases fillBuckets_keys ihash m.numReduce _ parts _ e r hr with c | ⟨kv, _, c⟩
    · exact absurd c (List.not_mem_nil _)
    · rw [← c]; exact hh kv.Key
  obtain ⟨store', s, hs, g2, e2⟩ := ReportMapSuccess_spec m h task.TaskID parts hid hparts
  refine ⟨store', s, hs, ?_, ?_, ?_⟩
  · intro r; rw [g2 r, hb r]
  · intro r hr; rw [← hb r]; exact bucketOf_absent m h parts hparts r hr
  · unfold doMap doMapPartitions
    simp only [Option.bind_eq_bind]
    rw [e]
    exact e2

theorem storeExtends_refl (store : GoMap Int (GoMap String (List String))) :
    StoreExtends store store :=
  fun _ _ => ⟨⟨[], by simp⟩, fun h => h⟩

theorem storeExtends_trans (a b c : GoMap Int (GoMap String (List String)))
    (h1 : StoreExtends a b) (h2 : StoreExtends b c) : StoreExtends a c := by
  intro r k
  obtain ⟨⟨x, hx⟩, k1⟩ := h1 r k
  obtain ⟨⟨y, hy⟩, k2⟩ := h2 r k
  exact ⟨⟨x ++ y, by rw [hy, hx, List.append_assoc]⟩, fun h => k2 (k1 h)⟩

theorem appendValue_extends (store store' : GoMap Int (GoMap String (List String)))
    (r : Int) (kv : KeyValue) (h : appendValue store r kv = some store') :
    StoreExtends store store' := by
  unfold appendValue at h
  cases e : store.get? r with
  | none => simp [e] at h
  | some inner =>
    simp only [e, Option.some.injEq] at h
    subst h
    intro r' k'
    unfold storeValues storeHasKey
    by_cases c : r = r'
    · subst c
      rw [get_set_self, e]
      simp only [Option.some_bind]
      by_cases ck : kv.Key = k'
      · subst ck
        rw [get_set_self]
        exact ⟨⟨[kv.Value], rfl⟩, fun _ => rfl⟩
      · rw [get_set_other _ _ _ _ ck]
        exact ⟨⟨[], by simp⟩, fun hk => hk⟩
    · rw [get_set_other _ _ _ _ c]
      exact ⟨⟨[], by simp⟩, fun hk => hk⟩

theorem appendAll_extends (store store' : GoMap Int (GoMap String (List String)))
    (r : Int) (kvs : List KeyValue) (h : appendAll store r kvs = some store') :
    StoreExtends store store' := by
  induction kvs generalizing store with
  | nil =>
    simp only [appendAll, Option.some.injEq] at h
    subst h
    exact storeExtends_refl _
  | cons kv kvs ih =>
    simp only [appendAll] at h
    cases e : appendValue store r kv with
    | none => simp [e] at h
    | some s1 =>
      simp only [e, Option.some_bind] at h
      exact storeExtends_trans _ _ _ (appendValue_extends _ _ _ _ e) (ih s1 h)

theorem appendPartitions_extends (store store' : GoMap Int (GoMap String (List String)))
    (entries : List (Int × List KeyValue)) (h : appendPartitions store entries = some store') :
    StoreExtends store store' := by
  induction entries generalizing store with
  | nil =>
    simp only [appendPartitions, Option.some.injEq] at h
    subst h
    exact storeExtends_refl _
  | cons e rest ih =>
    obtain ⟨r0, kvs0⟩ := e
    simp only [appendPartitions] at h
    cases e1 : appendAll store r0 kvs0 with
    | none => simp [e1] at h
    | some s1 =>
      simp only [e1, Option.some_bind] at h
      exact storeExtends_trans _ _ _ (appendAll_extends _ _ _ _ e1) (ih s1 h)

theorem ReportMapSuccess_status (m m' : Master) (mapID : Int)
    (partitions : GoMap Int (List KeyValue))
    (e : ReportMapSuccess m mapID partitions = some m') :
    NeverRegresses m.mapStatus m'.mapStatus ∧ m'.reduceStatus = m.reduceStatus := by
  obtain ⟨store', st', _, e2, e3⟩ := ReportMapSuccess_inv m m' mapID partitions e
  obtain ⟨_, _, s, hs, hst⟩ := setDone_inv _ _ _ e2
  subst e3
  refine ⟨?_, rfl⟩
  show NeverRegresses m.mapStatus st'
  rw [hst]
  refine neverRegresses_set _ _ s _ hs ?_
  cases hx : s.Status <;> simp [Status.rank]

theorem ReportReduceSuccess_status (m m' : Master) (reduceID : Int) (output : String)
    (e : ReportReduceSuccess m reduceID output = some m') :
    NeverRegresses m.reduceStatus m'.reduceStatus ∧ m'.mapStatus = m.mapStatus ∧
      m'.intermediateFiles = m.intermediateFiles := by
  obtain ⟨st', e2, e3⟩ := ReportReduceSuccess_inv m m' reduceID output e
  obtain ⟨_, _, s, hs, hst⟩ := setDone_inv _ _ _ e2
  subst e3
  refine ⟨?_, rfl, rfl⟩
  show NeverRegresses m.reduceStatus st'
  rw [hst]
  refine neverRegresses_set _ _ s _ hs ?_
  cases hx : s.Status <;> simp [Status.rank]

theorem RequestTask_status (m : Master) (now : Int) (h : m.WF) :
    ∃ t m', RequestTask m now = some (t, m') ∧
      NeverRegresses m.mapStatus m'.mapStatus ∧
      NeverRegresses m.reduceStatus m'.reduceStatus ∧
      m'.intermediateFiles = m.intermediateFiles := by
  rcases RequestTask_cases m now h with ⟨i, d, hl, _, e⟩ | ⟨i, s, d, _, hl, hs, _, e⟩ |
    ⟨_, _, _, e⟩ | ⟨i, _, hl, e⟩ | ⟨i, s, _, _, hl, hs, e⟩ | ⟨_, _, _, e⟩
  · have hlt : i < m.mapStatus.length := by have := h.2.1; have := hl.1; omega
    refine ⟨_, _, e, ?_, neverRegresses_refl _, rfl⟩
    refine neverRegresses_set _ i m.mapStatus[i] _ (List.getElem?_eq_getElem hlt) ?_
    have := hl.2.1
    simp [statusAt, List.getElem?_eq_getElem hlt] at this
    simp [this, Status.rank]
  · exact ⟨_, _, e, neverRegresses_set _ i s _ hs (le_refl _), neverRegresses_refl _, rfl⟩
  · exact ⟨_, _, e, neverRegresses_refl _, neverRegresses_refl _, rfl⟩
  · have hlt : i < m.reduceStatus.length := by have := h.2.2.1; have := hl.1; omega
    refine ⟨_, _, e, neverRegresses_refl _, ?_, rfl⟩
    refine neverRegresses_set _ i m.reduceStatus[i] _ (List.getElem?_eq_getElem hlt) ?_
    have := hl.2.1
    simp [statusAt, List.getElem?_eq_getElem hlt] at this
    simp [this, Status.rank]
  · exact ⟨_, _, e, neverRegresses_refl _, neverRegresses_set _ i s _ hs (le_refl _), rfl⟩
  · exact ⟨_, _, e, neverRegresses_refl _, neverRegresses_refl _, rfl⟩

/-! ## The claims -/

/-- C1, the phase barrier: in every well-formed state and at every clock
reading `RequestTask` returns a task; if the task is a Reduce task then every
map task of the state it was called on is done, and if some map task is idle or
in progress then the task is a Map task or a NoTask. -/
theorem requestTask_phase_barrier (m : Master) (now : Int) (h : m.WF) :
    ∃ t m', RequestTask m now = some (t, m') ∧
      (t.Typ = ReduceTask → AllDone m.mapStatus) ∧
      ((∃ i, statusAt m.mapStatus i = some Status.idle ∨
            statusAt m.mapStatus i = some Status.inProgress) →
        t.Typ = MapTask ∨ t.Typ = NoTask) := by
  have key : ∀ t m', RequestTask m now = some (t, m') →
      (t.Typ = MapTask ∨ t.Typ = NoTask) ∨ (t.Typ = ReduceTask ∧ AllDone m.mapStatus) →
      ∃ t m', RequestTask m now = some (t, m') ∧
      (t.Typ = ReduceTask → AllDone m.mapStatus) ∧
      ((∃ i, statusAt m.mapStatus i = some Status.idle ∨
            statusAt m.mapStatus i = some Status.inProgress) →
        t.Typ = MapTask ∨ t.Typ = NoTask) := by
    intro t m' e hc
    refine ⟨t, m', e, ?_, ?_⟩
    · rcases hc with (hc | hc) | hc
      · intro c; rw [c] at hc; exact TaskType.noConfusion hc
      · intro c; rw [c] at hc; exact TaskType.noConfusion hc
      · exact fun _ => hc.2
    · rintro ⟨i, hi⟩
      rcases hc with hc | ⟨_, hall⟩
      · exact hc
      · exfalso
        have hlt : i < m.mapStatus.length := by
          by_contra hge
          have : m.mapStatus[i]? = none := List.getElem?_eq_none (by omega)
          rcases hi with hi | hi <;> simp [statusAt, this] at hi
        have hd := hall i hlt
        rcases hi with hi | hi <;> rw [hd] at hi <;> simp at hi
  rcases RequestTask_cases m now h with ⟨i, d, _, _, e⟩ | ⟨i, s, d, _, _, _, _, e⟩ |
    ⟨_, _, _, e⟩ | ⟨i, hall, _, e⟩ | ⟨i, s, hall, _, _, _, e⟩ | ⟨hall, _, _, e⟩
  · exact key _ _ e (Or.inl (Or.inl rfl))
  · exact key _ _ e (Or.inl (Or.inl rfl))
  · exact key _ _ e (Or.inl (Or.inr rfl))
  · exact key _ _ e (Or.inr ⟨rfl, hall⟩)
  · exact key _ _ e (Or.inr ⟨rfl, hall⟩)
  · exact key _ _ e (Or.inl (Or.inr rfl))

theorem requestTask_phase_barrier_witness :
    exReducePhase.WF ∧
    ∃ t m', RequestTask exReducePhase 9 = some (t, m') ∧
      (t.Typ = ReduceTask → AllDone exReducePhase.mapStatus) ∧
      ((∃ i, statusAt exReducePhase.mapStatus i = some Status.idle ∨
            statusAt exReducePhase.mapStatus i = some Status.inProgress) →
        t.Typ = MapTask ∨ t.Typ = NoTask) :=
  ⟨by decide, requestTask_phase_barrier exReducePhase 9 (by decide)⟩

/-- C2, rule 1 of `RequestTask`: when `i` is the lowest index of an idle map
task, `RequestTask` returns the Map task with `TaskID = ChunkIndex = i` and
`Data = inputs[i]`; afterwards map status `i` is in progress with `AssignedAt`
the call time, and every other map status, every reduce status and every other
field is as before.  Nothing is assumed about the other map tasks, so this
holds also when one of them is in progress past its timeout. -/
theorem requestTask_assigns_lowest_idle_map (m : Master) (now : Int) (h : m.WF) (i : Nat)
    (hi : Lowest (fun j => statusAt m.mapStatus j = some Status.idle) m.numMap i) :
    ∃ t m', RequestTask m now = some (t, m') ∧
      t.Typ = MapTask ∧ t.TaskID = (i : Int) ∧ t.ChunkIndex = (i : Int) ∧
      m.inputFiles[i]? = some t.Data ∧
      m'.mapStatus[i]? = some ⟨Status.inProgress, now⟩ ∧
      (∀ j, j ≠ i → m'.mapStatus[j]? = m.mapStatus[j]?) ∧
      m'.mapStatus.length = m.mapStatus.length ∧
      m'.reduceStatus = m.reduceStatus ∧
      m'.intermediateFiles = m.intermediateFiles ∧ m'.outputFiles = m.outputFiles ∧
      m'.inputFiles = m.inputFiles ∧ m'.numMap = m.numMap ∧ m'.numReduce = m.numReduce := by
  have hlen : i < m.mapStatus.length := by have := h.2.1; have := hi.1; omega
  rcases RequestTask_cases m now h with ⟨i', d, hl, hd, e⟩ | ⟨_, _, _, n, _⟩ | ⟨n, _⟩ |
    ⟨_, hall, _⟩ | ⟨_, _, hall, _⟩ | ⟨hall, _⟩
  · have hii : i' = i := Lowest_unique _ _ _ _ hl hi
    subst hii
    refine ⟨_, _, e, rfl, rfl, rfl, hd, ?_, ?_, ?_, rfl, rfl, rfl, rfl, rfl, rfl⟩
    · simp [hlen]
    · intro j hj
      simp [List.getElem?_set, Ne.symm hj]
    · simp
  · exact absurd hi.2.1 (n i hi.1)
  · exact absurd hi.2.1 (n i hi.1)
  · have := hall i hlen; rw [hi.2.1] at this; simp at this
  · have := hall i hlen; rw [hi.2.1] at this; simp at this
  · have := hall i hlen; rw [hi.2.1] at this; simp at this

theorem requestTask_assigns_lowest_idle_map_witness :
    exMapPhase.WF ∧
    Lowest (fun j => statusAt exMapPhase.mapStatus j = some Status.idle) exMapPhase.numMap 2 ∧
    TimedOut exMapPhase.mapStatus 6000000000 (5 * second) 0 ∧
    ∃ t m', RequestTask exMapPhase 6000000000 = some (t, m') ∧
      t.Typ = MapTask ∧ t.TaskID = ((2 : Nat) : Int) ∧ t.ChunkIndex = ((2 : Nat) : Int) ∧
      exMapPhase.inputFiles[2]? = some t.Data ∧
      m'.mapStatus[2]? = some ⟨Status.inProgress, 6000000000⟩ ∧
      (∀ j, j ≠ 2 → m'.mapStatus[j]? = exMapPhase.mapStatus[j]?) ∧
      m'.mapStatus.length = exMapPhase.mapStatus.length ∧
      m'.reduceStatus = exMapPhase.reduceStatus ∧
      m'.intermediateFiles = exMapPhase.intermediateFiles ∧
      m'.outputFiles = exMapPhase.outputFiles ∧
      m'.inputFiles = exMapPhase.inputFiles ∧ m'.numMap = exMapPhase.numMap ∧
      m'.numReduce = exMapPhase.numReduce :=
  ⟨by decide, by unfold Lowest; decide, ⟨_, rfl, rfl, by decide⟩,
    requestTask_assigns_lowest_idle_map exMapPhase 6000000000 (by decide) 2
      (by unfold Lowest; decide)⟩

/-- C3, straggler reassignment: when no map task is idle and `i` is the lowest
index of a map task in progress that was assigned more than 5 seconds before
the call time, `RequestTask` returns the Map task with `TaskID = ChunkIndex = i`
and `Data = inputs[i]` again; afterwards map status `i` is in progress with
`AssignedAt` the call time, and every other status record and field is as
before. -/
theorem requestTask_reassigns_straggler (m : Master) (now : Int) (h : m.WF) (i : Nat)
    (hidle : ∀ j, j < m.numMap → ¬ statusAt m.mapStatus j = some Status.idle)
    (hi : Lowest (TimedOut m.mapStatus now (5 * second)) m.numMap i) :
    ∃ t m', RequestTask m now = some (t, m') ∧
      t.Typ = MapTask ∧ t.TaskID = (i : Int) ∧ t.ChunkIndex = (i : Int) ∧
      m.inputFiles[i]? = some t.Data ∧
      m'.mapStatus[i]? = some ⟨Status.inProgress, now⟩ ∧
      (∀ j, j ≠ i → m'.mapStatus[j]? = m.mapStatus[j]?) ∧
      m'.mapStatus.length = m.mapStatus.length ∧
      m'.reduceStatus = m.reduceStatus ∧
      m'.intermediateFiles = m.intermediateFiles ∧ m'.outputFiles = m.outputFiles ∧
      m'.inputFiles = m.inputFiles ∧ m'.numMap = m.numMap ∧ m'.numReduce = m.numReduce := by
  have hlen : i < m.mapStatus.length := by have := h.2.1; have := hi.1; omega
  have notDone : ¬ AllDone m.mapStatus := by
    intro hall
    obtain ⟨s, hs, hs1, _⟩ := hi.2.1
    have := hall i hlen
    simp [statusAt, hs, hs1] at this
  rcases RequestTask_cases m now h with ⟨i', _, hl, _⟩ | ⟨i', s, d, _, hl, hs, hd, e⟩ |
    ⟨_, n, _⟩ | ⟨_, hall, _⟩ | ⟨_, _, hall, _⟩ | ⟨hall, _⟩
  · exact absurd hl.2.1 (hidle i' hl.1)
  · have hii : i' = i := Lowest_unique _ _ _ _ hl hi
    subst hii
    obtain ⟨s', hs', hs1, _⟩ := hi.2.1
    rw [hs] at hs'
    cases hs'
    refine ⟨_, _, e, rfl, rfl, rfl, hd, ?_, ?_, ?_, rfl, rfl, rfl, rfl, rfl, rfl⟩
    · simp [hlen, ← hs1]
    · intro j hj
      simp [List.getElem?_set, Ne.symm hj]
    · simp
  · exact absurd hi.2.1 (n i hi.1)
  · exact absurd hall notDone
  · exact absurd hall notDone
  · exact absurd hall notDone

theorem requestTask_reassigns_straggler_witness :
    exStraggler.WF ∧
    (∀ j, j < exStraggler.numMap → ¬ statusAt exStraggler.mapStatus j = some Status.idle) ∧
    Lowest (TimedOut exStraggler.mapStatus 5000000001 (5 * second)) exStraggler.numMap 1 ∧
    ∃ t m', RequestTask exStraggler 5000000001 = some (t, m') ∧
      t.Typ = MapTask ∧ t.TaskID = ((1 : Nat) : Int) ∧ t.ChunkIndex = ((1 : Nat) : Int) ∧
      exStraggler.inputFiles[1]? = some t.Data ∧
      m'.mapStatus[1]? = some ⟨Status.inProgress, 5000000001⟩ ∧
      (∀ j, j ≠ 1 → m'.mapStatus[j]? = exStraggler.mapStatus[j]?) ∧
      m'.mapStatus.length = exStraggler.mapStatus.length ∧
      m'.reduceStatus = exStraggler.reduceStatus ∧
      m'.intermediateFiles = exStraggler.intermediateFiles ∧
      m'.outputFiles = exStraggler.outputFiles ∧
      m'.inputFiles = exStraggler.inputFiles ∧ m'.numMap = exStraggler.numMap ∧
      m'.numReduce = exStraggler.numReduce :=
  have hlow : Lowest (TimedOut exStraggler.mapStatus 5000000001 (5 * second))
      exStraggler.numMap 1 := by
    refine ⟨by decide, ⟨_, rfl, rfl, by decide⟩, ?_⟩
    intro j hj
    have hj0 : j = 0 := by omega
    subst hj0
    rintro ⟨s, hs, hs1, _⟩
    cases hs
    exact Status.noConfusion hs1
  ⟨by decide, by decide, hlow,
    requestTask_reassigns_straggler exStraggler 5000000001 (by decide) 1 (by decide) hlow⟩

/-- C4: in a well-formed state `Success` returns true exactly when every map
status and every reduce status is done, and false otherwise; the coordinator
`NewMaster([], 0)` succeeds at once, and a fresh coordinator with at least one
input or at least one reduce partition does not. -/
theorem success_iff_all_done (m : Master) (h : m.WF) (inputs : List String) (numReduce : Nat)
    (hne : inputs ≠ [] ∨ 0 < numReduce) :
    (Success m = some true ↔ AllDone m.mapStatus ∧ AllDone m.reduceStatus) ∧
    (Success m = some false ↔ ¬ (AllDone m.mapStatus ∧ AllDone m.reduceStatus)) ∧
    Success (NewMaster [] 0) = some true ∧
    Success (NewMaster inputs numReduce) = some false := by
  refine ⟨?_, ?_, by decide, ?_⟩
  · rcases Success_cases m h with ⟨h1, h2, e⟩ | ⟨h1, e⟩
    · simp [e, h1, h2]
    · rw [e]; simp only [Option.some.injEq, Bool.false_eq_true, false_iff]; exact h1
  · rcases Success_cases m h with ⟨h1, h2, e⟩ | ⟨h1, e⟩
    · simp [e, h1, h2]
    · rw [e]; simp only [true_iff]; exact h1
  · rcases Success_cases _ (NewMaster_WF inputs numReduce) with ⟨h1, h2, _⟩ | ⟨_, e⟩
    · exfalso
      have a := (allDone_replicate_idle inputs.length 0).1 h1
      have b := (allDone_replicate_idle numReduce 0).1 h2
      rcases hne with hne | hne
      · exact hne (List.length_eq_zero.1 a)
      · omega
    · exact e

theorem success_iff_all_done_witness :
    exReducePhase.WF ∧ (["a"] ≠ [] ∨ 0 < 0) ∧
    (Success exReducePhase = some true ↔
      AllDone exReducePhase.mapStatus ∧ AllDone exReducePhase.reduceStatus) ∧
    (Success exReducePhase = some false ↔
      ¬ (AllDone exReducePhase.mapStatus ∧ AllDone exReducePhase.reduceStatus)) ∧
    Success (NewMaster [] 0) = some true ∧
    Success (NewMaster ["a"] 0) = some false :=
  ⟨by decide, by decide, success_iff_all_done exReducePhase (by decide) ["a"] 0 (by decide)⟩

/-- C5, completion is stable: in a well-formed state where `Success` is true,
`RequestTask` at any clock reading returns a NoTask and leaves the state as it
is, and after `ReportMapSuccess` with an in-range map ID and in-range partition
indices, or `ReportReduceSuccess` with an in-range reduce ID, the state is again
well formed and `Success` is still true. -/
theorem success_is_stable (m : Master) (h : m.WF) (hs : Success m = some true) (now : Int)
    (mapID : Int) (partitions : GoMap Int (List KeyValue)) (reduceID : Int) (output : String) :
    RequestTask m now = some (⟨NoTask, 0, 0, ""⟩, m) ∧
    (0 ≤ mapID ∧ mapID < (m.numMap : Int) → PartitionsInRange m partitions →
      ∃ m', ReportMapSuccess m mapID partitions = some m' ∧ m'.WF ∧ Success m' = some true) ∧
    (0 ≤ reduceID ∧ reduceID < (m.numReduce : Int) →
      ∃ m', ReportReduceSuccess m reduceID output = some m' ∧ m'.WF ∧
        Success m' = some true) := by
  obtain ⟨hm, hr⟩ := (Success_true_iff m h).1 hs
  have hmlen := h.2.1
  have hrlen := h.2.2.1
  refine ⟨?_, ?_, ?_⟩
  · rcases RequestTask_cases m now h with ⟨i, _, hl, _⟩ | ⟨i, _, _, _, hl, _⟩ | ⟨_, _, n, _⟩ |
      ⟨i, _, hl, _⟩ | ⟨i, _, _, _, hl, _⟩ | ⟨_, _, _, e⟩
    · have := hm i (by have := hl.1; omega)
      rw [hl.2.1] at this; simp at this
    · obtain ⟨s, e1, e2, _⟩ := hl.2.1
      have := hm i (by have := hl.1; omega)
      simp [statusAt, e1, e2] at this
    · exact absurd hm n
    · have := hr i (by have := hl.1; omega)
      rw [hl.2.1] at this; simp at this
    · obtain ⟨s, e1, e2, _⟩ := hl.2.1
      have := hr i (by have := hl.1; omega)
      simp [statusAt, e1, e2] at this
    · exact e
  · intro hmap hparts
    obtain ⟨store', s, _, _, e⟩ := ReportMapSuccess_spec m h mapID partitions hmap hparts
    have hwf := ReportMapSuccess_WF m _ h mapID partitions hmap hparts e
    refine ⟨_, e, hwf, (Success_true_iff _ hwf).2 ⟨?_, hr⟩⟩
    exact allDone_set_done _ _ _ rfl hm
  · intro hred
    obtain ⟨s, _, e⟩ := ReportReduceSuccess_spec m h reduceID output hred
    have hwf := ReportReduceSuccess_WF m _ h reduceID output hred e
    refine ⟨_, e, hwf, (Success_true_iff _ hwf).2 ⟨hm, ?_⟩⟩
    exact allDone_set_done _ _ _ rfl hr

theorem success_is_stable_witness :
    exFinished.WF ∧ Success exFinished = some true ∧
    RequestTask exFinished 99 = some (⟨NoTask, 0, 0, ""⟩, exFinished) ∧
    (∃ m', ReportMapSuccess exFinished 0 exReport = some m' ∧ m'.WF ∧
      Success m' = some true) ∧
    (∃ m', ReportReduceSuccess exFinished 0 "again" = some m' ∧ m'.WF ∧
      Success m' = some true) :=
  have key := success_is_stable exFinished (by decide) (by decide) 99 0 exReport 0 "again"
  ⟨by decide, by decide, key.1, key.2.1 (by decide) (by unfold PartitionsInRange; decide),
    key.2.2 (by decide)⟩

/-- C6, task status is monotonic: in every well-formed state, `RequestTask` at
any clock reading returns a state in which no map or reduce status is earlier
than before in the order idle < in-progress < done, a done task is still done
and a task in progress is not idle; the same holds of the state returned by any
call of `ReportMapSuccess` or `ReportReduceSuccess`, and these calls do return
when their IDs (and partition indices) are in range. -/
theorem status_is_monotonic (m : Master) (h : m.WF) (now : Int) (mapID : Int)
    (partitions : GoMap Int (List KeyValue)) (reduceID : Int) (output : String) :
    (∃ t m', RequestTask m now = some (t, m') ∧
      NeverRegresses m.mapStatus m'.mapStatus ∧
      NeverRegresses m.reduceStatus m'.reduceStatus) ∧
    (∀ m', ReportMapSuccess m mapID partitions = some m' →
      NeverRegresses m.mapStatus m'.mapStatus ∧
      NeverRegresses m.reduceStatus m'.reduceStatus) ∧
    (0 ≤ mapID ∧ mapID < (m.numMap : Int) → PartitionsInRange m partitions →
      ∃ m', ReportMapSuccess m mapID partitions = some m') ∧
    (∀ m', ReportReduceSuccess m reduceID output = some m' →
      NeverRegresses m.mapStatus m'.mapStatus ∧
      NeverRegresses m.reduceStatus m'.reduceStatus) ∧
    (0 ≤ reduceID ∧ reduceID < (m.numReduce : Int) →
      ∃ m', ReportReduceSuccess m reduceID output = some m') := by
  refine ⟨?_, ?_, ?_, ?_, ?_⟩
  · obtain ⟨t, m', e, h1, h2, _⟩ := RequestTask_status m now h
    exact ⟨t, m', e, h1, h2⟩
  · intro m' e
    obtain ⟨h1, h2⟩ := ReportMapSuccess_status m m' mapID partitions e
    refine ⟨h1, ?_⟩
    rw [h2]
    exact neverRegresses_refl _
  · intro hmap hparts
    obtain ⟨store', s, _, _, e⟩ := ReportMapSuccess_spec m h mapID partitions hmap hparts
    exact ⟨_, e⟩
  · intro m' e
    obtain ⟨h1, h2, _⟩ := ReportReduceSuccess_status m m' reduceID output e
    refine ⟨?_, h1⟩
    rw [h2]
    exact neverRegresses_refl _
  · intro hred
    obtain ⟨s, _, e⟩ := ReportReduceSuccess_spec m h reduceID output hred
    exact ⟨_, e⟩

theorem status_is_monotonic_witness :
    exStraggler.WF ∧
    (∃ t m', RequestTask exStraggler 5000000001 = some (t, m') ∧
      NeverRegresses exStraggler.mapStatus m'.mapStatus ∧
      NeverRegresses exStraggler.reduceStatus m'.reduceStatus) ∧
    (∀ m', ReportMapSuccess exStraggler 1 exReport = some m' →
      NeverRegresses exStraggler.mapStatus m'.mapStatus ∧
      NeverRegresses exStraggler.reduceStatus m'.reduceStatus) ∧
    (∃ m', ReportMapSuccess exStraggler 1 exReport = some m') ∧
    (∀ m', ReportReduceSuccess exStraggler 0 "out" = some m' →
      NeverRegresses exStraggler.mapStatus m'.mapStatus ∧
      NeverRegresses exStraggler.reduceStatus m'.reduceStatus) ∧
    (∃ m', ReportReduceSuccess exStraggler 0 "out" = some m') :=
  have key := status_is_monotonic exStraggler (by decide) 5000000001 1 exReport 0 "out"
  ⟨by decide, key.1, key.2.1,
    key.2.2.1 (by decide) (by unfold PartitionsInRange; decide), key.2.2.2.1,
    key.2.2.2.2 (by decide)⟩

/-- C7: `ReportMapSuccess` with an in-range map ID and in-range partition
indices returns a state in which, for every partition `r` and key `k`, the
value list of `k` in `r` is the list before followed by the values of the pairs
with key `k` in `partitions[r]`, in their order there; map status `mapID` is
done, with its `AssignedAt` kept; all other map statuses, the reduce statuses,
the Output Store and the remaining fields are as before. -/
theorem reportMapSuccess_appends (m : Master) (h : m.WF) (mapID : Int)
    (partitions : GoMap Int (List KeyValue))
    (hmap : 0 ≤ mapID ∧ mapID < (m.numMap : Int)) (hparts : PartitionsInRange m partitions) :
    ∃ m' s, ReportMapSuccess m mapID partitions = some m' ∧
      (∀ r k, storeValues m'.intermediateFiles r k =
        storeValues m.intermediateFiles r k ++ valuesOf k (bucketOf partitions r)) ∧
      m.mapStatus[mapID.toNat]? = some s ∧
      m'.mapStatus[mapID.toNat]? = some ⟨Status.done, s.AssignedAt⟩ ∧
      (∀ j, j ≠ mapID.toNat → m'.mapStatus[j]? = m.mapStatus[j]?) ∧
      m'.mapStatus.length = m.mapStatus.length ∧
      m'.reduceStatus = m.reduceStatus ∧ m'.outputFiles = m.outputFiles ∧
      m'.inputFiles = m.inputFiles ∧ m'.numMap = m.numMap ∧ m'.numReduce = m.numReduce := by
  obtain ⟨store', s, hs, g, e⟩ := ReportMapSuccess_spec m h mapID partitions hmap hparts
  have hlt : mapID.toNat < m.mapStatus.length := by have := h.2.1; omega
  refine ⟨_, s, e, ?_, hs, ?_, ?_, ?_, rfl, rfl, rfl, rfl, rfl⟩
  · intro r k
    exact storeValues_append _ _ _ r (g r) (bucketOf_absent m h partitions hparts r) k
  · simp [hlt]
  · intro j hj
    simp [List.getElem?_set, Ne.symm hj]
  · simp

theorem reportMapSuccess_appends_witness :
    exStored.WF ∧ (0 ≤ (1 : Int) ∧ (1 : Int) < (exStored.numMap : Int)) ∧
    PartitionsInRange exStored exReport2 ∧
    storeValues exStored.intermediateFiles 0 "k" = ["v"] ∧
    valuesOf "k" (bucketOf exReport2 0) = ["w1", "w2"] ∧
    ∃ m' s, ReportMapSuccess exStored 1 exReport2 = some m' ∧
      (∀ r k, storeValues m'.intermediateFiles r k =
        storeValues exStored.intermediateFiles r k ++ valuesOf k (bucketOf exReport2 r)) ∧
      exStored.mapStatus[(1 : Int).toNat]? = some s ∧
      m'.mapStatus[(1 : Int).toNat]? = some ⟨Status.done, s.AssignedAt⟩ ∧
      (∀ j, j ≠ (1 : Int).toNat → m'.mapStatus[j]? = exStored.mapStatus[j]?) ∧
      m'.mapStatus.length = exStored.mapStatus.length ∧
      m'.reduceStatus = exStored.reduceStatus ∧ m'.outputFiles = exStored.outputFiles ∧
      m'.inputFiles = exStored.inputFiles ∧ m'.numMap = exStored.numMap ∧
      m'.numReduce = exStored.numReduce :=
  ⟨by decide, by decide, by unfold PartitionsInRange; decide, by decide, by decide,
    reportMapSuccess_appends exStored (by decide) 1 exReport2 (by decide)
      (by unfold PartitionsInRange; decide)⟩

/-- C8, duplicate reports are not suppressed: two calls of `ReportMapSuccess`
with the same arguments leave, for every partition `r` and key `k`, the value
list before followed twice by the values of the task for `k`; for every pair of
the report the second call changes the value list of its key, so it changes the
Intermediate Store; the second call leaves the status records as the first
left them. -/
theorem reportMapSuccess_twice_appends_twice (m : Master) (h : m.WF) (mapID : Int)
    (partitions : GoMap Int (List KeyValue))
    (hmap : 0 ≤ mapID ∧ mapID < (m.numMap : Int)) (hparts : PartitionsInRange m partitions) :
    ∃ m1 m2, ReportMapSuccess m mapID partitions = some m1 ∧
      ReportMapSuccess m1 mapID partitions = some m2 ∧
      (∀ r k, storeValues m2.intermediateFiles r k =
        storeValues m.intermediateFiles r k ++ valuesOf k (bucketOf partitions r) ++
          valuesOf k (bucketOf partitions r)) ∧
      (∀ r kv, kv ∈ bucketOf partitions r →
        storeValues m2.intermediateFiles r kv.Key ≠ storeValues m1.intermediateFiles r kv.Key ∧
        m2.intermediateFiles ≠ m1.intermediateFiles) ∧
      m2.mapStatus = m1.mapStatus ∧ m2.reduceStatus = m1.reduceStatus := by
  obtain ⟨store1, s, hs, g1, e1⟩ := ReportMapSuccess_spec m h mapID partitions hmap hparts
  have hwf := ReportMapSuccess_WF m _ h mapID partitions hmap hparts e1
  have hlt : mapID.toNat < m.mapStatus.length := by have := h.2.1; omega
  have v1 := fun r k =>
    storeValues_append _ _ _ r (g1 r) (bucketOf_absent m h partitions hparts r) k
  obtain ⟨store2, s', hs', g2, e2⟩ := ReportMapSuccess_spec _ hwf mapID partitions hmap hparts
  have v2 := fun r k =>
    storeValues_append _ _ _ r (g2 r) (bucketOf_absent _ hwf partitions hparts r) k
  have hs1 : s' = { s with Status := Status.done } := by
    simp [hlt] at hs'
    exact hs'.symm
  refine ⟨_, _, e1, e2, ?_, ?_, ?_, rfl⟩
  · intro r k
    show storeValues store2 r k = _
    rw [v2 r k]
    show storeValues store1 r k ++ _ = _
    rw [v1 r k]
  · intro r kv hkv
    have hne : storeValues store2 r kv.Key ≠ storeValues store1 r kv.Key := by
      rw [v2 r kv.Key]
      intro c
      have hnil := List.append_right_eq_self.1 c
      exact valuesOf_ne_nil kv _ hkv hnil
    refine ⟨hne, ?_⟩
    intro c
    apply hne
    show storeValues store2 r kv.Key = storeValues store1 r kv.Key
    have c' : store2 = store1 := c
    rw [c']
  · show (m.mapStatus.set mapID.toNat _).set mapID.toNat _ = m.mapStatus.set mapID.toNat _
    rw [hs1]
    simp

theorem reportMapSuccess_twice_appends_twice_witness :
    exStored.WF ∧ (0 ≤ (1 : Int) ∧ (1 : Int) < (exStored.numMap : Int)) ∧
    PartitionsInRange exStored exReport2 ∧
    ∃ m1 m2, ReportMapSuccess exStored 1 exReport2 = some m1 ∧
      ReportMapSuccess m1 1 exReport2 = some m2 ∧
      (∀ r k, storeValues m2.intermediateFiles r k =
        storeValues exStored.intermediateFiles r k ++ valuesOf k (bucketOf exReport2 r) ++
          valuesOf k (bucketOf exReport2 r)) ∧
      (∀ r kv, kv ∈ bucketOf exReport2 r →
        storeValues m2.intermediateFiles r kv.Key ≠ storeValues m1.intermediateFiles r kv.Key ∧
        m2.intermediateFiles ≠ m1.intermediateFiles) ∧
      m2.mapStatus = m1.mapStatus ∧ m2.reduceStatus = m1.reduceStatus :=
  ⟨by decide, by decide, by unfold PartitionsInRange; decide,
    reportMapSuccess_twice_appends_twice exStored (by decide) 1 exReport2 (by decide)
      (by unfold PartitionsInRange; decide)⟩

/-- C9, partition routing in `doMap`: for `numReduce >= 1` and every map output
`kvs`, the bucket of index `r` holds exactly the pairs of `kvs` whose key `k` has
`ihash(k) % numReduce = r`, in the order of `kvs`; so each pair is in the bucket
of that index and in no other, the buckets together are a permutation of `kvs`,
and pairs with equal keys from two map outputs `kvs` and `kvs'` are in buckets
of the same index.  These buckets are what `doMap` passes to
`ReportMapSuccess`. -/
theorem doMap_routes_by_hash (ihash : String → Int) (numReduce : Nat) (hn : 1 ≤ numReduce)
    (kvs kvs' : List KeyValue) :
    ∃ parts parts', doMapPartitions ihash numReduce kvs = some parts ∧
      doMapPartitions ihash numReduce kvs' = some parts' ∧
      (∀ r, bucketOf parts r =
        kvs.filter (fun kv => decide (Int.tmod (ihash kv.Key) (numReduce : Int) = r))) ∧
      (∀ kv, kv ∈ kvs → ∀ r,
        (kv ∈ bucketOf parts r ↔ r = Int.tmod (ihash kv.Key) (numReduce : Int))) ∧
      (allPairs parts).Perm kvs ∧
      (∀ kv kv', kv ∈ kvs → kv' ∈ kvs' → kv.Key = kv'.Key →
        ∃ r, kv ∈ bucketOf parts r ∧ kv' ∈ bucketOf parts' r) ∧
      (∀ (w : Worker) (m : Master) (task : Task), m.numReduce = numReduce →
        w.mapFn ("doc-" ++ toString task.ChunkIndex) task.Data = kvs →
        doMap ihash w m task = ReportMapSuccess m task.TaskID parts) := by
  obtain ⟨parts, e, g, p⟩ := fillBuckets_spec ihash numReduce hn GoMap.empty kvs
  obtain ⟨parts', e', g', _⟩ := fillBuckets_spec ihash numReduce hn GoMap.empty kvs'
  have hempty : ∀ r, bucketOf (GoMap.empty : GoMap Int (List KeyValue)) r = [] := fun _ => rfl
  have hb : ∀ r, bucketOf parts r =
      kvs.filter (fun kv => decide (Int.tmod (ihash kv.Key) (numReduce : Int) = r)) := by
    intro r; rw [g r, hempty]; simp
  have hb' : ∀ r, bucketOf parts' r =
      kvs'.filter (fun kv => decide (Int.tmod (ihash kv.Key) (numReduce : Int) = r)) := by
    intro r; rw [g' r, hempty]; simp
  refine ⟨parts, parts', e, e', hb, ?_, ?_, ?_, ?_⟩
  · intro kv hkv r
    rw [hb r, List.mem_filter]
    simp only [hkv, true_and, decide_eq_true_eq]
    exact eq_comm
  · have : allPairs (GoMap.empty : GoMap Int (List KeyValue)) = [] := rfl
    rw [this] at p
    simpa using p
  · intro kv kv' hkv hkv' hkey
    refine ⟨Int.tmod (ihash kv.Key) (numReduce : Int), ?_, ?_⟩
    · rw [hb, List.mem_filter]; simp [hkv]
    · rw [hb', List.mem_filter]; simp [hkv', hkey]
  · intro w m task hm hk
    simp only [doMap, hm, hk]
    show (doMapPartitions ihash numReduce kvs).bind _ = _
    rw [show doMapPartitions ihash numReduce kvs = some parts from e]
    rfl

theorem doMap_routes_by_hash_witness :
    1 ≤ 2 ∧
    ∃ parts parts',
      doMapPartitions exHash 2 [⟨"a", "1"⟩, ⟨"bb", "2"⟩, ⟨"c", "3"⟩] = some parts ∧
      doMapPartitions exHash 2 [⟨"c", "9"⟩] = some parts' ∧
      (∀ r, bucketOf parts r =
        [(⟨"a", "1"⟩ : KeyValue), ⟨"bb", "2"⟩, ⟨"c", "3"⟩].filter
          (fun kv => decide (Int.tmod (exHash kv.Key) ((2 : Nat) : Int) = r))) ∧
      (∀ kv, kv ∈ [(⟨"a", "1"⟩ : KeyValue), ⟨"bb", "2"⟩, ⟨"c", "3"⟩] → ∀ r,
        (kv ∈ bucketOf parts r ↔ r = Int.tmod (exHash kv.Key) ((2 : Nat) : Int))) ∧
      (allPairs parts).Perm [⟨"a", "1"⟩, ⟨"bb", "2"⟩, ⟨"c", "3"⟩] ∧
      (∀ kv kv', kv ∈ [(⟨"a", "1"⟩ : KeyValue), ⟨"bb", "2"⟩, ⟨"c", "3"⟩] →
        kv' ∈ [(⟨"c", "9"⟩ : KeyValue)] → kv.Key = kv'.Key →
        ∃ r, kv ∈ bucketOf parts r ∧ kv' ∈ bucketOf parts' r) ∧
      (∀ (w : Worker) (m : Master) (task : Task), m.numReduce = 2 →
        w.mapFn ("doc-" ++ toString task.ChunkIndex) task.Data =
          [⟨"a", "1"⟩, ⟨"bb", "2"⟩, ⟨"c", "3"⟩] →
        doMap exHash w m task = ReportMapSuccess m task.TaskID parts) :=
  ⟨by decide, doMap_routes_by_hash exHash 2 (by decide)
    [⟨"a", "1"⟩, ⟨"bb", "2"⟩, ⟨"c", "3"⟩] [⟨"c", "9"⟩]⟩

/-- C10, reduce blob assembly: `doReduce` calls `ReportReduceSuccess` with the
lines `k + " " + reduceFn(k, values of k)` joined by `"\n"`, where `k` runs
through a list `keys` that holds each key of the partition once, in ascending
order; `reduceFn` is called once for each element of `keys`, with the values
stored for it; the blob is `""` when the partition has no keys; and the blob
does not depend on the order in which the partition is ranged over. -/
theorem doReduce_assembles_sorted_blob (w : Worker) (m : Master) (task : Task) :
    ∃ keys : List String,
      keys.Perm ((m.intermediateFiles.get? task.ChunkIndex).getD GoMap.empty).keys ∧
      keys.Sorted strLE ∧ keys.Nodup ∧
      reduceCalls (GetReducePartitions m task.ChunkIndex) =
        keys.map (fun k => (k, storeValues m.intermediateFiles task.ChunkIndex k)) ∧
      doReduce w m task = ReportReduceSuccess m task.TaskID
        (String.intercalate "\n" (keys.map (fun k =>
          k ++ " " ++ w.reduceFn k (storeValues m.intermediateFiles task.ChunkIndex k)))) ∧
      (((m.intermediateFiles.get? task.ChunkIndex).getD GoMap.empty).keys = [] →
        doReduce w m task = ReportReduceSuccess m task.TaskID "") ∧
      (∀ q : GoMap String (List String),
        q.entries.Perm (GetReducePartitions m task.ChunkIndex).entries →
        reduceBlob w.reduceFn q =
          reduceBlob w.reduceFn (GetReducePartitions m task.ChunkIndex)) := by
  obtain ⟨hs, hp, hn⟩ := reduceKeys_sorted (GetReducePartitions m task.ChunkIndex)
  have hkeys : (GetReducePartitions m task.ChunkIndex).keys =
      ((m.intermediateFiles.get? task.ChunkIndex).getD GoMap.empty).keys := by
    unfold GoMap.keys
    rw [GetReducePartitions_entries]
  have hcalls : reduceCalls (GetReducePartitions m task.ChunkIndex) =
      (reduceKeys (GetReducePartitions m task.ChunkIndex)).map
        (fun k => (k, storeValues m.intermediateFiles task.ChunkIndex k)) := by
    unfold reduceCalls
    apply List.map_congr_left
    intro k _
    rw [GetReducePartitions_values]
  have hblob : reduceBlob w.reduceFn (GetReducePartitions m task.ChunkIndex) =
      String.intercalate "\n" ((reduceKeys (GetReducePartitions m task.ChunkIndex)).map
        (fun k => k ++ " " ++
          w.reduceFn k (storeValues m.intermediateFiles task.ChunkIndex k))) := by
    unfold reduceBlob reduceLines
    rw [foldl_lines, hcalls]
    simp [List.map_map, Function.comp_def]
  refine ⟨reduceKeys (GetReducePartitions m task.ChunkIndex), hkeys ▸ hp, hs, hn, hcalls,
    ?_, ?_, ?_⟩
  · unfold doReduce
    rw [hblob]
  · intro hnil
    have hk0 : reduceKeys (GetReducePartitions m task.ChunkIndex) = [] := by
      rw [hkeys, hnil] at hp
      exact List.Perm.eq_nil hp
    unfold doReduce
    rw [hblob, hk0]
    rfl
  · intro q hq
    exact reduceBlob_perm w.reduceFn q _ hq

/-- C11 as stated fails: on `NewMaster(["a", "b"], 1)`, after both map tasks
were handed out, the reports of map tasks 0 and 1, both with key `"k"`, give the
value list `["x", "y"]` in one order and `["y", "x"]` in the other, and with a
reduce function that joins its values the blobs of partition 0 are `"k xy"` and
`"k yx"`. -/
theorem reduce_blob_depends_on_report_order :
    ∃ m1 m2,
      run (NewMaster ["a", "b"] 1)
        ([Op.request 1, Op.request 2] ++ reportOps [exReportA, exReportB]) = some m1 ∧
      run (NewMaster ["a", "b"] 1)
        ([Op.request 1, Op.request 2] ++ reportOps [exReportB, exReportA]) = some m2 ∧
      storeValues m1.intermediateFiles 0 "k" = ["x", "y"] ∧
      storeValues m2.intermediateFiles 0 "k" = ["y", "x"] ∧
      reduceBlob exJoin (GetReducePartitions m1 0) = "k xy" ∧
      reduceBlob exJoin (GetReducePartitions m2 0) = "k yx" ∧
      reduceBlob exJoin (GetReducePartitions m1 0) ≠
        reduceBlob exJoin (GetReducePartitions m2 0) :=
  ⟨_, _, rfl, rfl, by decide, by decide, by decide, by decide, by decide⟩

/-- C11, amended: for a reduce function whose result does not depend on the
order of the values, applying the same reports with `ReportMapSuccess` in two
different orders gives, for every partition, the same blob in `doReduce`. -/
theorem reduce_blob_same_for_symmetric_reduce (reduceFn : ReduceFunc) (m : Master) (h : m.WF)
    (reports reports' : List (Int × GoMap Int (List KeyValue)))
    (hsym : ∀ k (vs vs' : List String), vs.Perm vs' → reduceFn k vs = reduceFn k vs')
    (hperm : reports.Perm reports') (hr : ReportsInRange m reports) :
    ∃ m1 m2, run m (reportOps reports) = some m1 ∧ run m (reportOps reports') = some m2 ∧
      ∀ r, reduceBlob reduceFn (GetReducePartitions m1 r) =
        reduceBlob reduceFn (GetReducePartitions m2 r) := by
  have hr' : ReportsInRange m reports' := fun rp hrp => hr rp (hperm.mem_iff.2 hrp)
  obtain ⟨m1, e1, _, _, _, g1⟩ := reports_spec m h reports hr
  obtain ⟨m2, e2, _, _, _, g2⟩ := reports_spec m h reports' hr'
  refine ⟨m1, m2, e1, e2, ?_⟩
  intro r
  have hv : ∀ k, (reportedValues reports r k).Perm (reportedValues reports' r k) :=
    fun k => List.Perm.flatten (List.Perm.map _ hperm)
  have hnil : ∀ k, reportedValues reports r k = [] ↔ reportedValues reports' r k = [] := by
    intro k
    constructor
    · intro c
      have := hv k
      rw [c] at this
      exact List.Perm.eq_nil this.symm
    · intro c
      have := hv k
      rw [c] at this
      exact List.Perm.eq_nil this
  apply reduceBlob_congr
  · intro k
    rw [GetReducePartitions_get, GetReducePartitions_get, g1 r k, g2 r k]
    by_cases c : reportedValues reports r k = []
    · rw [if_pos c, if_pos ((hnil k).1 c)]
    · rw [if_neg c, if_neg (fun c' => c ((hnil k).2 c'))]
      rfl
  · intro k
    rw [GetReducePartitions_get, GetReducePartitions_get, g1 r k, g2 r k]
    by_cases c : reportedValues reports r k = []
    · rw [if_pos c, if_pos ((hnil k).1 c)]
    · rw [if_neg c, if_neg (fun c' => c ((hnil k).2 c'))]
      exact hsym k _ _ (List.Perm.append_left _ (hv k))

theorem reduce_blob_same_for_symmetric_reduce_witness :
    (NewMaster ["a", "b"] 1).WF ∧
    (∀ k (vs vs' : List String), vs.Perm vs' → exCount k vs = exCount k vs') ∧
    [exReportA, exReportB].Perm [exReportB, exReportA] ∧
    ReportsInRange (NewMaster ["a", "b"] 1) [exReportA, exReportB] ∧
    ∃ m1 m2, run (NewMaster ["a", "b"] 1) (reportOps [exReportA, exReportB]) = some m1 ∧
      run (NewMaster ["a", "b"] 1) (reportOps [exReportB, exReportA]) = some m2 ∧
      ∀ r, reduceBlob exCount (GetReducePartitions m1 r) =
        reduceBlob exCount (GetReducePartitions m2 r) :=
  have hsym : ∀ k (vs vs' : List String), vs.Perm vs' → exCount k vs = exCount k vs' := by
    intro k vs vs' hp
    simp [exCount, hp.length_eq]
  have hperm : [exReportA, exReportB].Perm [exReportB, exReportA] := List.Perm.swap _ _ _
  have hr : ReportsInRange (NewMaster ["a", "b"] 1) [exReportA, exReportB] := by
    intro rp hrp
    simp only [List.mem_cons, List.mem_singleton, List.not_mem_nil, or_false] at hrp
    rcases hrp with e | e <;> subst e <;>
      exact ⟨by decide, by unfold PartitionsInRange; decide⟩
  ⟨NewMaster_WF _ _, hsym, hperm, hr,
    reduce_blob_same_for_symmetric_reduce exCount _ (NewMaster_WF _ _) _ _ hsym hperm hr⟩

/-- C12 as stated fails: `doMap` on a map output with the pairs `("", "x")` and
`("k", "w")` leaves an entry under the empty key, with the value `"x"`, in
partition 0 of the Intermediate Store. -/
theorem empty_key_is_stored :
    ∃ m', doMap exHash exWorkerEmptyKey (NewMaster ["x"] 2) ⟨MapTask, 0, 0, "x"⟩ = some m' ∧
      storeHasKey m'.intermediateFiles 0 "" ∧
      storeValues m'.intermediateFiles 0 "" = ["x"] ∧
      storeValues m'.intermediateFiles 1 "k" = ["w"] :=
  ⟨_, rfl, by unfold storeHasKey; decide, by decide, by decide⟩

/-- C12, amended: `doMap` with its `ReportMapSuccess` excludes no pair.  For a
hash with values in range and an in-range task, every pair of the map output,
whatever its key, the empty key included, is stored: for every partition `r`
and key `k` the value list afterwards is the list before followed by the values
of the pairs with key `k` that are routed to `r`, and the key of every pair has
an entry in the partition `ihash(key) % numReduce`. -/
theorem doMap_stores_every_pair (ihash : String → Int) (w : Worker) (m : Master)
    (task : Task) (h : m.WF) (hn : 1 ≤ m.numReduce) (hh : HashInRange ihash m.numReduce)
    (hid : 0 ≤ task.TaskID ∧ task.TaskID < (m.numMap : Int)) :
    ∃ m', doMap ihash w m task = some m' ∧
      (∀ r k, storeValues m'.intermediateFiles r k =
        storeValues m.intermediateFiles r k ++ valuesOf k (routedTo ihash m.numReduce r
          (w.mapFn ("doc-" ++ toString task.ChunkIndex) task.Data))) ∧
      (∀ kv, kv ∈ w.mapFn ("doc-" ++ toString task.ChunkIndex) task.Data →
        storeHasKey m'.intermediateFiles
          (Int.tmod (ihash kv.Key) (m.numReduce : Int)) kv.Key) := by
  obtain ⟨store', s, _, g, hnone, e⟩ := doMap_spec ihash w m task h hn hh hid
  refine ⟨_, e, ?_, ?_⟩
  · intro r k
    exact storeValues_append _ _ _ r (g r) (hnone r) k
  · intro kv hkv
    have hentry := storeEntry_report _ _ _ (Int.tmod (ihash kv.Key) (m.numReduce : Int))
      (g _) (hnone _) kv.Key
    have hne : valuesOf kv.Key (routedTo ihash m.numReduce
        (Int.tmod (ihash kv.Key) (m.numReduce : Int))
        (w.mapFn ("doc-" ++ toString task.ChunkIndex) task.Data)) ≠ [] := by
      apply valuesOf_ne_nil
      simp [routedTo, List.mem_filter, hkv]
    rw [if_neg hne] at hentry
    show (storeEntry store' _ kv.Key).isSome = true
    rw [hentry]
    rfl

theorem doMap_stores_every_pair_witness :
    (NewMaster ["x"] 2).WF ∧ 1 ≤ (NewMaster ["x"] 2).numReduce ∧
    HashInRange exHash (NewMaster ["x"] 2).numReduce ∧
    (0 ≤ (0 : Int) ∧ (0 : Int) < ((NewMaster ["x"] 2).numMap : Int)) ∧
    ∃ m', doMap exHash exWorkerEmptyKey (NewMaster ["x"] 2) ⟨MapTask, 0, 0, "x"⟩ = some m' ∧
      (∀ r k, storeValues m'.intermediateFiles r k =
        storeValues (NewMaster ["x"] 2).intermediateFiles r k ++
          valuesOf k (routedTo exHash (NewMaster ["x"] 2).numReduce r
            (exWorkerEmptyKey.mapFn ("doc-" ++ toString (0 : Int)) "x"))) ∧
      (∀ kv, kv ∈ exWorkerEmptyKey.mapFn ("doc-" ++ toString (0 : Int)) "x" →
        storeHasKey m'.intermediateFiles
          (Int.tmod (exHash kv.Key) ((NewMaster ["x"] 2).numReduce : Int)) kv.Key) :=
  have hh : HashInRange exHash (NewMaster ["x"] 2).numReduce :=
    hashInRange_of_nonneg exHash 2 (by decide) (fun k => Int.ofNat_nonneg _)
  ⟨NewMaster_WF _ _, by decide, hh, by decide,
    doMap_stores_every_pair exHash exWorkerEmptyKey (NewMaster ["x"] 2)
      ⟨MapTask, 0, 0, "x"⟩ (NewMaster_WF _ _) (by decide) hh (by decide)⟩

/-- C13, rule 3 of `RequestTask`: when no map task is idle, every map task in
progress was assigned at most 5 seconds before the call time, and some map task
is not done, `RequestTask` returns a NoTask and the state is as before, whatever
the reduce statuses are. -/
theorem requestTask_waits_for_barrier (m : Master) (now : Int) (h : m.WF)
    (hidle : ∀ j, j < m.numMap → ¬ statusAt m.mapStatus j = some Status.idle)
    (hfresh : ∀ (j : Nat) (s : TaskStatus), m.mapStatus[j]? = some s → s.Status = Status.inProgress →
      now - s.AssignedAt ≤ 5 * second)
    (hnot : ∃ j, j < m.numMap ∧ ¬ statusAt m.mapStatus j = some Status.done) :
    RequestTask m now = some (⟨NoTask, 0, 0, ""⟩, m) := by
  have notDone : ¬ AllDone m.mapStatus := by
    intro hall
    obtain ⟨j, hj, hn⟩ := hnot
    exact hn (hall j (by have := h.2.1; omega))
  rcases RequestTask_cases m now h with ⟨i, _, hl, _⟩ | ⟨i, _, _, _, hl, _⟩ | ⟨_, _, _, e⟩ |
    ⟨_, hall, _⟩ | ⟨_, _, hall, _⟩ | ⟨hall, _⟩
  · exact absurd hl.2.1 (hidle i hl.1)
  · exact absurd hl.2.1 (not_timedOut_of_fresh _ _ _ i (hfresh i))
  · exact e
  · exact absurd hall notDone
  · exact absurd hall notDone
  · exact absurd hall notDone

theorem requestTask_waits_for_barrier_witness :
    exWaiting.WF ∧
    (∀ j, j < exWaiting.numMap → ¬ statusAt exWaiting.mapStatus j = some Status.idle) ∧
    (∀ (j : Nat) (s : TaskStatus), exWaiting.mapStatus[j]? = some s → s.Status = Status.inProgress →
      5000000000 - s.AssignedAt ≤ 5 * second) ∧
    (∃ j, j < exWaiting.numMap ∧ ¬ statusAt exWaiting.mapStatus j = some Status.done) ∧
    statusAt exWaiting.reduceStatus 0 = some Status.idle ∧
    RequestTask exWaiting 5000000000 = some (⟨NoTask, 0, 0, ""⟩, exWaiting) :=
  have hfresh : ∀ (j : Nat) (s : TaskStatus), exWaiting.mapStatus[j]? = some s → s.Status = Status.inProgress →
      5000000000 - s.AssignedAt ≤ 5 * second := by
    intro j s hs _
    have hj : j < 2 := by
      by_contra c
      have : exWaiting.mapStatus[j]? = none := List.getElem?_eq_none (by simp [exWaiting]; omega)
      rw [this] at hs
      exact Option.noConfusion hs
    interval_cases j <;> simp [exWaiting] at hs <;> subst hs <;> decide
  ⟨by decide, by decide, hfresh, ⟨1, by decide, by decide⟩, by decide,
    requestTask_waits_for_barrier exWaiting 5000000000 (by decide) (by decide) hfresh
      ⟨1, by decide, by decide⟩⟩

/-- C14, rule 4 of `RequestTask`: when all map tasks are done and `i` is the
lowest index of an idle reduce task, `RequestTask` returns the Reduce task with
`TaskID = ChunkIndex = i` and empty `Data`; afterwards reduce status `i` is in
progress with `AssignedAt` the call time, and every other reduce status, every
map status and every other field is as before. -/
theorem requestTask_assigns_lowest_idle_reduce (m : Master) (now : Int) (h : m.WF) (i : Nat)
    (hall : AllDone m.mapStatus)
    (hi : Lowest (fun j => statusAt m.reduceStatus j = some Status.idle) m.numReduce i) :
    ∃ m', RequestTask m now = some (⟨ReduceTask, (i : Int), (i : Int), ""⟩, m') ∧
      m'.reduceStatus[i]? = some ⟨Status.inProgress, now⟩ ∧
      (∀ j, j ≠ i → m'.reduceStatus[j]? = m.reduceStatus[j]?) ∧
      m'.reduceStatus.length = m.reduceStatus.length ∧
      m'.mapStatus = m.mapStatus ∧
      m'.intermediateFiles = m.intermediateFiles ∧ m'.outputFiles = m.outputFiles ∧
      m'.inputFiles = m.inputFiles ∧ m'.numMap = m.numMap ∧ m'.numReduce = m.numReduce := by
  have hlen : i < m.reduceStatus.length := by have := h.2.2.1; have := hi.1; omega
  rcases RequestTask_cases m now h with ⟨i', _, hl, _⟩ | ⟨i', _, _, _, hl, _⟩ | ⟨_, _, n, _⟩ |
    ⟨i', _, hl, e⟩ | ⟨_, _, _, n, _⟩ | ⟨_, n, _⟩
  · have := hall i' (by have := h.2.1; have := hl.1; omega)
    rw [hl.2.1] at this; simp at this
  · obtain ⟨s, e1, e2, _⟩ := hl.2.1
    have := hall i' (by have := h.2.1; have := hl.1; omega)
    simp [statusAt, e1, e2] at this
  · exact absurd hall n
  · have hii : i' = i := Lowest_unique _ _ _ _ hl hi
    subst hii
    refine ⟨_, e, ?_, ?_, ?_, rfl, rfl, rfl, rfl, rfl, rfl⟩
    · simp [hlen]
    · intro j hj
      simp [List.getElem?_set, Ne.symm hj]
    · simp
  · exact absurd hi.2.1 (n i hi.1)
  · exact absurd hi.2.1 (n i hi.1)

theorem requestTask_assigns_lowest_idle_reduce_witness :
    exReduceIdle.WF ∧ AllDone exReduceIdle.mapStatus ∧
    Lowest (fun j => statusAt exReduceIdle.reduceStatus j = some Status.idle)
      exReduceIdle.numReduce 2 ∧
    ∃ m', RequestTask exReduceIdle 9 =
        some (⟨ReduceTask, ((2 : Nat) : Int), ((2 : Nat) : Int), ""⟩, m') ∧
      m'.reduceStatus[2]? = some ⟨Status.inProgress, 9⟩ ∧
      (∀ j, j ≠ 2 → m'.reduceStatus[j]? = exReduceIdle.reduceStatus[j]?) ∧
      m'.reduceStatus.length = exReduceIdle.reduceStatus.length ∧
      m'.mapStatus = exReduceIdle.mapStatus ∧
      m'.intermediateFiles = exReduceIdle.intermediateFiles ∧
      m'.outputFiles = exReduceIdle.outputFiles ∧
      m'.inputFiles = exReduceIdle.inputFiles ∧ m'.numMap = exReduceIdle.numMap ∧
      m'.numReduce = exReduceIdle.numReduce :=
  have hall : AllDone exReduceIdle.mapStatus := by
    intro i hi
    have : i = 0 := by simp [exReduceIdle] at hi; omega
    subst this
    rfl
  ⟨by decide, hall, by unfold Lowest; decide,
    requestTask_assigns_lowest_idle_reduce exReduceIdle 9 (by decide) 2 hall
      (by unfold Lowest; decide)⟩

/-- C15, rules 5 and 6 of `RequestTask`: when all map tasks are done and no
reduce task is idle, `RequestTask` returns the Reduce task of the lowest index
`i` of a reduce task in progress that was assigned more than 10 seconds before
the call time, sets its `AssignedAt` to the call time and leaves its status in
progress and everything else as before; when there is no such reduce task it
returns a NoTask and the state is as before. -/
theorem requestTask_reduce_timeout_or_none (m : Master) (now : Int) (h : m.WF)
    (hall : AllDone m.mapStatus)
    (hidle : ∀ j, j < m.numReduce → ¬ statusAt m.reduceStatus j = some Status.idle) :
    (∀ i, Lowest (TimedOut m.reduceStatus now (10 * second)) m.numReduce i →
      ∃ m', RequestTask m now = some (⟨ReduceTask, (i : Int), (i : Int), ""⟩, m') ∧
        m'.reduceStatus[i]? = some ⟨Status.inProgress, now⟩ ∧
        (∀ j, j ≠ i → m'.reduceStatus[j]? = m.reduceStatus[j]?) ∧
        m'.reduceStatus.length = m.reduceStatus.length ∧
        m'.mapStatus = m.mapStatus ∧
        m'.intermediateFiles = m.intermediateFiles ∧ m'.outputFiles = m.outputFiles ∧
        m'.inputFiles = m.inputFiles ∧ m'.numMap = m.numMap ∧
        m'.numReduce = m.numReduce) ∧
    ((∀ j, j < m.numReduce → ¬ TimedOut m.reduceStatus now (10 * second) j) →
      RequestTask m now = some (⟨NoTask, 0, 0, ""⟩, m)) := by
  have hcases := RequestTask_cases m now h
  have hm : ∀ i', i' < m.numMap → statusAt m.mapStatus i' = some Status.done :=
    fun i' hi' => hall i' (by have := h.2.1; omega)
  constructor
  · intro i hi
    have hlen : i < m.reduceStatus.length := by have := h.2.2.1; have := hi.1; omega
    rcases hcases with ⟨i', _, hl, _⟩ | ⟨i', _, _, _, hl, _⟩ | ⟨_, _, n, _⟩ |
      ⟨i', _, hl, _⟩ | ⟨i', s, _, _, hl, hs, e⟩ | ⟨_, _, n, _⟩
    · have := hm i' hl.1
      rw [hl.2.1] at this; simp at this
    · obtain ⟨s, e1, e2, _⟩ := hl.2.1
      have := hm i' hl.1
      simp [statusAt, e1, e2] at this
    · exact absurd hall n
    · exact absurd hl.2.1 (hidle i' hl.1)
    · have hii : i' = i := Lowest_unique _ _ _ _ hl hi
      subst hii
      obtain ⟨s', hs', hs1, _⟩ := hi.2.1
      rw [hs] at hs'
      cases hs'
      refine ⟨_, e, ?_, ?_, ?_, rfl, rfl, rfl, rfl, rfl, rfl⟩
      · simp [hlen, ← hs1]
      · intro j hj
        simp [List.getElem?_set, Ne.symm hj]
      · simp
    · exact absurd hi.2.1 (n i hi.1)
  · intro hnone
    rcases hcases with ⟨i', _, hl, _⟩ | ⟨i', _, _, _, hl, _⟩ | ⟨_, _, n, _⟩ |
      ⟨i', _, hl, _⟩ | ⟨i', s, _, _, hl, _⟩ | ⟨_, _, _, e⟩
    · have := hm i' hl.1
      rw [hl.2.1] at this; simp at this
    · obtain ⟨s, e1, e2, _⟩ := hl.2.1
      have := hm i' hl.1
      simp [statusAt, e1, e2] at this
    · exact absurd hall n
    · exact absurd hl.2.1 (hidle i' hl.1)
    · exact absurd hl.2.1 (hnone i' hl.1)
    · exact e

theorem requestTask_reduce_timeout_or_none_witness :
    exReduceStraggler.WF ∧ AllDone exReduceStraggler.mapStatus ∧
    (∀ j, j < exReduceStraggler.numReduce →
      ¬ statusAt exReduceStraggler.reduceStatus j = some Status.idle) ∧
    Lowest (TimedOut exReduceStraggler.reduceStatus 10000000001 (10 * second))
      exReduceStraggler.numReduce 1 ∧
    (∃ m', RequestTask exReduceStraggler 10000000001 =
        some (⟨ReduceTask, ((1 : Nat) : Int), ((1 : Nat) : Int), ""⟩, m') ∧
      m'.reduceStatus[1]? = some ⟨Status.inProgress, 10000000001⟩ ∧
      (∀ j, j ≠ 1 → m'.reduceStatus[j]? = exReduceStraggler.reduceStatus[j]?) ∧
      m'.reduceStatus.length = exReduceStraggler.reduceStatus.length ∧
      m'.mapStatus = exReduceStraggler.mapStatus ∧
      m'.intermediateFiles = exReduceStraggler.intermediateFiles ∧
      m'.outputFiles = exReduceStraggler.outputFiles ∧
      m'.inputFiles = exReduceStraggler.inputFiles ∧
      m'.numMap = exReduceStraggler.numMap ∧
      m'.numReduce = exReduceStraggler.numReduce) ∧
    (∀ j, j < exReduceStraggler.numReduce →
      ¬ TimedOut exReduceStraggler.reduceStatus 10000000000 (10 * second) j) ∧
    RequestTask exReduceStraggler 10000000000 =
      some (⟨NoTask, 0, 0, ""⟩, exReduceStraggler) :=
  have hall : AllDone exReduceStraggler.mapStatus := by
    intro i hi
    have : i = 0 := by simp [exReduceStraggler] at hi; omega
    subst this
    rfl
  have hidle : ∀ j, j < exReduceStraggler.numReduce →
      ¬ statusAt exReduceStraggler.reduceStatus j = some Status.idle := by decide
  have hlow : Lowest (TimedOut exReduceStraggler.reduceStatus 10000000001 (10 * second))
      exReduceStraggler.numReduce 1 := by
    refine ⟨by decide, ⟨_, rfl, rfl, by decide⟩, ?_⟩
    intro j hj
    have hj0 : j = 0 := by omega
    subst hj0
    rintro ⟨s, hs, hs1, _⟩
    cases hs
    exact Status.noConfusion hs1
  have hnone : ∀ j, j < exReduceStraggler.numReduce →
      ¬ TimedOut exReduceStraggler.reduceStatus 10000000000 (10 * second) j := by
    intro j hj
    rintro ⟨s, hs, hs1, hs2⟩
    have hj3 : j < 3 := hj
    interval_cases j <;> simp [exReduceStraggler] at hs <;> subst hs
    · exact Status.noConfusion hs1
    · revert hs2; decide
    · revert hs2; decide
  ⟨by decide, hall, hidle, hlow,
    (requestTask_reduce_timeout_or_none exReduceStraggler 10000000001 (by decide) hall
      hidle).1 1 hlow,
    hnone,
    (requestTask_reduce_timeout_or_none exReduceStraggler 10000000000 (by decide) hall
      hidle).2 hnone⟩

/-- C16, the empty-input run: for `NewMaster([], 1)`, `Success` is false at
first; the first `RequestTask` returns Reduce task 0; `doReduce` on that task
assembles the blob `""` and reports it; afterwards `Success` is true and
`GetOutputFile(0)` is `""`.  This holds for every reduce function and clock
reading. -/
theorem empty_input_run (w : Worker) (now : Int) :
    Success (NewMaster [] 1) = some false ∧
    RequestTask (NewMaster [] 1) now =
      some (⟨ReduceTask, 0, 0, ""⟩, emptyRunAssigned now) ∧
    reduceBlob w.reduceFn (GetReducePartitions (emptyRunAssigned now) 0) = "" ∧
    doReduce w (emptyRunAssigned now) ⟨ReduceTask, 0, 0, ""⟩ =
      ReportReduceSuccess (emptyRunAssigned now) 0 "" ∧
    ∃ m2, doReduce w (emptyRunAssigned now) ⟨ReduceTask, 0, 0, ""⟩ = some m2 ∧
      Success m2 = some true ∧ GetOutputFile m2 0 = "" ∧
      statusAt m2.reduceStatus 0 = some Status.done := by
  refine ⟨by decide, rfl, rfl, rfl, ?_⟩
  exact ⟨_, rfl, rfl, rfl, rfl⟩

/-- C17: `ReportReduceSuccess` with an in-range reduce ID returns a state in
which `GetOutputFile(reduceID)` is exactly `output` and reduce status
`reduceID` is done; the outputs of all other partitions, all other status
records, the Intermediate Store and the remaining fields are as before; a
second report for the same partition replaces the blob; and in a state reached
from `NewMaster` by calls none of which reports partition `r`,
`GetOutputFile(r)` is `""`. -/
theorem reportReduceSuccess_stores_output (m : Master) (h : m.WF) (reduceID : Int)
    (output output' : String) (hred : 0 ≤ reduceID ∧ reduceID < (m.numReduce : Int))
    (inputs : List String) (numReduce : Nat) (ops : List Op) (mf : Master) (r : Int) :
    (∃ m' s, ReportReduceSuccess m reduceID output = some m' ∧
      GetOutputFile m' reduceID = output ∧
      m.reduceStatus[reduceID.toNat]? = some s ∧
      m'.reduceStatus[reduceID.toNat]? = some ⟨Status.done, s.AssignedAt⟩ ∧
      (∀ r', r' ≠ reduceID → GetOutputFile m' r' = GetOutputFile m r') ∧
      (∀ j, j ≠ reduceID.toNat → m'.reduceStatus[j]? = m.reduceStatus[j]?) ∧
      m'.reduceStatus.length = m.reduceStatus.length ∧
      m'.mapStatus = m.mapStatus ∧ m'.intermediateFiles = m.intermediateFiles ∧
      m'.inputFiles = m.inputFiles ∧ m'.numMap = m.numMap ∧ m'.numReduce = m.numReduce ∧
      ∃ m'', ReportReduceSuccess m' reduceID output' = some m'' ∧
        GetOutputFile m'' reduceID = output') ∧
    (run (NewMaster inputs numReduce) ops = some mf →
      (∀ op, op ∈ ops → reportsReduce r op = false) → GetOutputFile mf r = "") := by
  constructor
  · obtain ⟨s, hs, e⟩ := ReportReduceSuccess_spec m h reduceID output hred
    have hwf := ReportReduceSuccess_WF m _ h reduceID output hred e
    have hlt : reduceID.toNat < m.reduceStatus.length := by have := h.2.2.1; omega
    obtain ⟨s', _, e'⟩ := ReportReduceSuccess_spec _ hwf reduceID output' hred
    refine ⟨_, s, e, ?_, hs, ?_, ?_, ?_, ?_, rfl, rfl, rfl, rfl, rfl, _, e', ?_⟩
    · simp [GetOutputFile, get_set_self]
    · simp [hlt]
    · intro r' hr'
      simp [GetOutputFile, get_set_other _ _ _ _ (Ne.symm hr')]
    · intro j hj
      simp [List.getElem?_set, Ne.symm hj]
    · simp
    · simp [GetOutputFile, get_set_self]
  · intro e hops
    have := run_unreported _ mf ops r (NewMaster_WF inputs numReduce) e hops rfl
    simp [GetOutputFile, this]

theorem reportReduceSuccess_stores_output_witness :
    exReduceStraggler.WF ∧
    (0 ≤ (1 : Int) ∧ (1 : Int) < (exReduceStraggler.numReduce : Int)) ∧
    (∃ mf, run (NewMaster ["a"] 2) exOps = some mf ∧
      (∀ op, op ∈ exOps → reportsReduce 1 op = false) ∧
      GetOutputFile mf 0 = "k v" ∧ GetOutputFile mf 1 = "") ∧
    ∃ m' s, ReportReduceSuccess exReduceStraggler 1 "first" = some m' ∧
      GetOutputFile m' 1 = "first" ∧
      exReduceStraggler.reduceStatus[(1 : Int).toNat]? = some s ∧
      m'.reduceStatus[(1 : Int).toNat]? = some ⟨Status.done, s.AssignedAt⟩ ∧
      (∀ r', r' ≠ 1 → GetOutputFile m' r' = GetOutputFile exReduceStraggler r') ∧
      (∀ j, j ≠ (1 : Int).toNat →
        m'.reduceStatus[j]? = exReduceStraggler.reduceStatus[j]?) ∧
      m'.reduceStatus.length = exReduceStraggler.reduceStatus.length ∧
      m'.mapStatus = exReduceStraggler.mapStatus ∧
      m'.intermediateFiles = exReduceStraggler.intermediateFiles ∧
      m'.inputFiles = exReduceStraggler.inputFiles ∧
      m'.numMap = exReduceStraggler.numMap ∧
      m'.numReduce = exReduceStraggler.numReduce ∧
      ∃ m'', ReportReduceSuccess m' 1 "second" = some m'' ∧
        GetOutputFile m'' 1 = "second" :=
  have hrun : ∃ mf, run (NewMaster ["a"] 2) exOps = some mf ∧ GetOutputFile mf 0 = "k v" :=
    ⟨_, rfl, by decide⟩
  have hops : ∀ op, op ∈ exOps → reportsReduce 1 op = false := by
    intro op hop
    simp only [exOps, List.mem_cons, List.mem_singleton, List.not_mem_nil, or_false] at hop
    rcases hop with e | e | e | e | e <;> subst e <;> rfl
  ⟨by decide, by decide,
    hrun.elim (fun mf hmf => ⟨mf, hmf.1, hops, hmf.2,
      (reportReduceSuccess_stores_output exReduceStraggler (by decide) 1 "first" "second"
        (by decide) ["a"] 2 exOps mf 1).2 hmf.1 hops⟩),
    (reportReduceSuccess_stores_output exReduceStraggler (by decide) 1 "first" "second"
      (by decide) ["a"] 2 exOps exReduceStraggler 1).1⟩

/-- C18, the Intermediate Store is append-only: in every well-formed state,
`RequestTask` returns a state with the same store, and so does every call of
`ReportReduceSuccess`; every call of `ReportMapSuccess` returns a state in
which, for every partition `r` and key `k`, the value list before is a leading
part of the value list after and a key that had an entry still has one; the
report calls do return when their IDs (and partition indices) are in range.
(`GetReducePartitions` and `Success` only read: they return a value and no
state.) -/
theorem intermediate_store_append_only (m : Master) (h : m.WF) (now : Int) (mapID : Int)
    (partitions : GoMap Int (List KeyValue)) (reduceID : Int) (output : String) :
    (∃ t m', RequestTask m now = some (t, m') ∧
      m'.intermediateFiles = m.intermediateFiles) ∧
    (∀ m', ReportReduceSuccess m reduceID output = some m' →
      m'.intermediateFiles = m.intermediateFiles) ∧
    (0 ≤ reduceID ∧ reduceID < (m.numReduce : Int) →
      ∃ m', ReportReduceSuccess m reduceID output = some m') ∧
    (∀ m', ReportMapSuccess m mapID partitions = some m' →
      ∀ r k, (∃ added, storeValues m'.intermediateFiles r k =
          storeValues m.intermediateFiles r k ++ added) ∧
        (storeHasKey m.intermediateFiles r k → storeHasKey m'.intermediateFiles r k)) ∧
    (0 ≤ mapID ∧ mapID < (m.numMap : Int) → PartitionsInRange m partitions →
      ∃ m', ReportMapSuccess m mapID partitions = some m') := by
  refine ⟨?_, ?_, ?_, ?_, ?_⟩
  · obtain ⟨t, m', e, _, _, h3⟩ := RequestTask_status m now h
    exact ⟨t, m', e, h3⟩
  · intro m' e
    exact (ReportReduceSuccess_status m m' reduceID output e).2.2
  · intro hred
    obtain ⟨s, _, e⟩ := ReportReduceSuccess_spec m h reduceID output hred
    exact ⟨_, e⟩
  · intro m' e
    obtain ⟨store', st', e1, _, e3⟩ := ReportMapSuccess_inv m m' mapID partitions e
    subst e3
    exact appendPartitions_extends _ _ _ e1
  · intro hmap hparts
    obtain ⟨store', s, _, _, e⟩ := ReportMapSuccess_spec m h mapID partitions hmap hparts
    exact ⟨_, e⟩

theorem intermediate_store_append_only_witness :
    exStored.WF ∧
    storeValues exStored.intermediateFiles 0 "k" = ["v"] ∧
    (∃ t m', RequestTask exStored 9 = some (t, m') ∧
      m'.intermediateFiles = exStored.intermediateFiles) ∧
    (∀ m', ReportReduceSuccess exStored 0 "out" = some m' →
      m'.intermediateFiles = exStored.intermediateFiles) ∧
    (∃ m', ReportReduceSuccess exStored 0 "out" = some m') ∧
    (∀ m', ReportMapSuccess exStored 1 exReport2 = some m' →
      ∀ r k, (∃ added, storeValues m'.intermediateFiles r k =
          storeValues exStored.intermediateFiles r k ++ added) ∧
        (storeHasKey exStored.intermediateFiles r k →
          storeHasKey m'.intermediateFiles r k)) ∧
    (∃ m', ReportMapSuccess exStored 1 exReport2 = some m') :=
  have key := intermediate_store_append_only exStored (by decide) 9 1 exReport2 0 "out"
  ⟨by decide, by decide, key.1, key.2.1, key.2.2.1 (by decide), key.2.2.2.1,
    key.2.2.2.2 (by decide) (by unfold PartitionsInRange; decide)⟩

/-- C19, the barrier on reachable states: in every state reached from
`NewMaster(inputs, numReduce)` under the worker protocol, if some reduce task
is in progress or done then every map task is done. -/
theorem reachable_reduce_started_implies_maps_done (inputs : List String) (numReduce : Nat)
    (m : Master) (issued : List Task) (t : Int)
    (h : Reachable inputs numReduce m issued t)
    (hred : ∃ i, statusAt m.reduceStatus i = some Status.inProgress ∨
      statusAt m.reduceStatus i = some Status.done) :
    AllDone m.mapStatus := by
  apply (reachable_invariant inputs numReduce m issued t h).2.2
  obtain ⟨i, hi⟩ := hred
  cases hs : m.reduceStatus[i]? with
  | none => rcases hi with hi | hi <;> simp [statusAt, hs] at hi
  | some s =>
    refine ⟨i, s, hs, ?_⟩
    intro c
    rcases hi with hi | hi <;> simp [statusAt, hs, c] at hi

theorem reachable_reduce_started_implies_maps_done_witness :
    Reachable ["a"] 1 exReducePhaseStarted
      [⟨ReduceTask, 0, 0, ""⟩, ⟨MapTask, 0, 0, "a"⟩] 7 ∧
    (∃ i, statusAt exReducePhaseStarted.reduceStatus i = some Status.inProgress ∨
      statusAt exReducePhaseStarted.reduceStatus i = some Status.done) ∧
    AllDone exReducePhaseStarted.mapStatus :=
  have h0 : Reachable ["a"] 1 (NewMaster ["a"] 1) [] 0 := Reachable.init 0
  have h1 := Reachable.request _ _ _ 0 3 ⟨MapTask, 0, 0, "a"⟩ h0 (by decide)
    (show RequestTask (NewMaster ["a"] 1) 3 = some (_,
      { NewMaster ["a"] 1 with mapStatus := [⟨Status.inProgress, 3⟩] }) from rfl)
  have h2 := Reachable.reportMap _
    { NewMaster ["a"] 1 with mapStatus := [⟨Status.done, 3⟩] } _ 3 ⟨MapTask, 0, 0, "a"⟩
    GoMap.empty h1 (List.mem_cons_self _ _) rfl rfl
  have h3 : Reachable ["a"] 1 exReducePhaseStarted
      [⟨ReduceTask, 0, 0, ""⟩, ⟨MapTask, 0, 0, "a"⟩] 7 :=
    Reachable.request _ _ _ 3 7 ⟨ReduceTask, 0, 0, ""⟩ h2 (by decide) rfl
  have hex : ∃ i, statusAt exReducePhaseStarted.reduceStatus i = some Status.inProgress ∨
      statusAt exReducePhaseStarted.reduceStatus i = some Status.done := ⟨0, Or.inl rfl⟩
  ⟨h3, hex, reachable_reduce_started_implies_maps_done ["a"] 1 exReducePhaseStarted _ 7 h3 hex⟩

end MapReduce
